import Mathlib

/-!
Verification of the multi-word unsigned division core of the intx library
(`src/lib/intx/div.cpp`).

Wide unsigned integers are arrays of 64-bit words, little-endian (word 0 is
least significant).  We embed word arrays as `List Nat` whose entries are
below `base = 2^64`, and each function of `div.cpp` as a Lean function on
such lists.  The external collaborators that `div.cpp` uses but does not
define (`normalize`, `reciprocal_2by1`/`udivrem_2by1`,
`reciprocal_3by2`/`udivrem_3by2`, `add_with_carry`, `sub_with_carry`,
`umul`) are modelled from the specification's contracts for them.
-/

namespace Intx

/-- Machine-word radix: words are 64-bit unsigned integers, all below `base`. -/
def base : Nat := 2 ^ 64

/-- Half of the radix: a divisor word is normalized when it is at least `half`
(top bit set). -/
def half : Nat := 2 ^ 63

theorem base_pos : 0 < base := by decide

theorem one_lt_base : 1 < base := by decide

theorem base_eq_two_half : base = 2 * half := by decide

/-- Numeric value of a carry/borrow flag. -/
def cval (c : Bool) : Nat := if c then 1 else 0

theorem cval_le_one (c : Bool) : cval c ≤ 1 := by cases c <;> simp [cval]

@[simp] theorem cval_true : cval true = 1 := rfl

@[simp] theorem cval_false : cval false = 0 := rfl

/-- Value of a little-endian list of 64-bit words. -/
def wval : List Nat → Nat
  | [] => 0
  | w :: ws => w + base * wval ws

@[simp] theorem wval_nil : wval [] = 0 := rfl

@[simp] theorem wval_cons (w : Nat) (ws : List Nat) :
    wval (w :: ws) = w + base * wval ws := rfl

theorem wval_append (a b : List Nat) :
    wval (a ++ b) = wval a + base ^ a.length * wval b := by
  induction a with
  | nil => simp
  | cons w ws ih => simp [ih, pow_succ]; ring

@[simp] theorem wval_replicate_zero (k : Nat) :
    wval (List.replicate k 0) = 0 := by
  induction k with
  | zero => rfl
  | succ n ih => simp [List.replicate_succ, ih]

/-- All entries of the list are genuine 64-bit word values. -/
def wordsBounded (l : List Nat) : Prop := ∀ w ∈ l, w < base

@[simp] theorem wordsBounded_nil : wordsBounded [] := by
  intro w hw; cases hw

theorem wordsBounded_cons {w : Nat} {ws : List Nat} :
    wordsBounded (w :: ws) ↔ w < base ∧ wordsBounded ws := by
  simp [wordsBounded]

theorem wordsBounded_append {a b : List Nat} :
    wordsBounded (a ++ b) ↔ wordsBounded a ∧ wordsBounded b := by
  simp [wordsBounded, or_imp, forall_and]

theorem wordsBounded_take (k : Nat) {l : List Nat} (h : wordsBounded l) :
    wordsBounded (l.take k) := fun w hw => h w (List.mem_of_mem_take hw)

theorem wordsBounded_drop (k : Nat) {l : List Nat} (h : wordsBounded l) :
    wordsBounded (l.drop k) := fun w hw => h w (List.mem_of_mem_drop hw)

theorem wval_lt_of_bounded {l : List Nat} (h : wordsBounded l) :
    wval l < base ^ l.length := by
  induction l with
  | nil => simp
  | cons w ws ih =>
      rw [wordsBounded_cons] at h
      have hws := ih h.2
      have hw := h.1
      simp only [wval_cons, List.length_cons, pow_succ]
      have h2 : wval ws + 1 ≤ base ^ ws.length := hws
      calc w + base * wval ws < base * (wval ws + 1) := by nlinarith
        _ ≤ base * base ^ ws.length := Nat.mul_le_mul_left base h2
        _ = base ^ ws.length * base := Nat.mul_comm _ _

theorem getD_single_zero (i : Nat) : List.getD [(0 : Nat)] i 0 = 0 := by
  cases i with
  | zero => rfl
  | succ n => simp [List.getD]

theorem wval_take_add_drop (l : List Nat) (k : Nat) :
    wval l = wval (l.take k) + base ^ (l.take k).length * wval (l.drop k) := by
  conv_lhs => rw [← List.take_append_drop k l]
  rw [wval_append]

/-! ### External word-level primitives

These are not defined in `src/lib/intx/div.cpp`; they are modelled from the
specification (§6, "Required external collaborators and their exact
contracts"). -/

/-- Modelled from the spec: `add_with_carry(x, y, carry_in) -> (sum, carry_out)`,
single-word addition with exact carry semantics (missing from src, declared in
the library headers). -/
def add_with_carry (x y : Nat) (c : Bool) : Nat × Bool :=
  ((x + y + cval c) % base, decide (base ≤ x + y + cval c))

/-- Modelled from the spec: `sub_with_carry(x, borrow_in) -> (diff, borrow_out)`,
single-word subtraction with exact borrow semantics (missing from src, declared
in the library headers).  For `x, y < base` the result is the wrapped
difference together with the underflow flag. -/
def sub_with_carry (x y : Nat) : Nat × Bool :=
  (if y ≤ x then x - y else x + base - y, decide (x < y))

/-- Modelled from the spec: `multiply_wide(x, y) -> (hi, lo)`, the 64×64→128
multiplication (missing from src, declared in the library headers). -/
def umul (x y : Nat) : Nat × Nat :=
  (x * y / base, x * y % base)

/-- Modelled from the spec: `divide_2by1(u: (hi, lo), d, R) -> (quotient,
remainder)`, the exact division of a 2-word value by a 1-word normalized
divisor (missing from src; the reciprocal argument is folded away since the
primitive's contract is exactness). -/
def udivrem_2by1 (hi lo d : Nat) : Nat × Nat :=
  ((hi * base + lo) / d, (hi * base + lo) % d)

/-- Modelled from the spec: `divide_3by2(u2, u1, u0, d, R) -> (quotient,
remainder: 2-word)`, the exact division of a 3-word value by a 2-word
normalized divisor (missing from src; the reciprocal argument is folded away
since the primitive's contract is exactness). -/
def udivrem_3by2 (u2 u1 u0 d : Nat) : Nat × Nat :=
  ((u2 * base ^ 2 + u1 * base + u0) / d, (u2 * base ^ 2 + u1 * base + u0) % d)

theorem add_with_carry_spec (x y : Nat) (c : Bool) (hx : x < base) (hy : y < base) :
    (add_with_carry x y c).1 < base ∧
    (add_with_carry x y c).1 + cval (add_with_carry x y c).2 * base = x + y + cval c := by
  have hmod : (x + y + cval c) % base < base := Nat.mod_lt _ base_pos
  have hdm := Nat.div_add_mod (x + y + cval c) base
  have hc := cval_le_one c
  unfold add_with_carry
  by_cases h : base ≤ x + y + cval c
  · have h1 : 1 ≤ (x + y + cval c) / base :=
      (Nat.le_div_iff_mul_le base_pos).mpr (by omega)
    have h2 : (x + y + cval c) / base < 2 := Nat.div_lt_of_lt_mul (by omega)
    have hdiv : (x + y + cval c) / base = 1 := by omega
    rw [hdiv] at hdm
    rw [decide_eq_true h]
    simp only [cval_true]
    omega
  · have hdiv : (x + y + cval c) / base = 0 := Nat.div_eq_of_lt (by omega)
    rw [hdiv] at hdm
    rw [decide_eq_false h]
    simp only [cval_false]
    omega

theorem sub_with_carry_spec (x y : Nat) (hx : x < base) (hy : y < base) :
    (sub_with_carry x y).1 < base ∧
    ((sub_with_carry x y).1 : ℤ) = (x : ℤ) - y + cval (sub_with_carry x y).2 * base ∧
    ((sub_with_carry x y).2 = true ↔ x < y) := by
  unfold sub_with_carry
  by_cases h : y ≤ x
  · have h' : ¬ x < y := by omega
    rw [decide_eq_false h']
    simp only [h, if_true, cval_false]
    refine ⟨by omega, ?_, by simp [h']⟩
    push_cast [h]
    ring
  · have h' : x < y := by omega
    rw [decide_eq_true h']
    simp only [h, if_false, cval_true]
    refine ⟨by omega, ?_, by simp [h']⟩
    have hxy : y ≤ x + base := by omega
    push_cast [hxy]
    ring

theorem umul_spec (x y : Nat) :
    (umul x y).1 * base + (umul x y).2 = x * y ∧ (umul x y).2 < base := by
  unfold umul
  exact ⟨by rw [Nat.mul_comm]; exact Nat.div_add_mod _ _, Nat.mod_lt _ base_pos⟩

/-! ### Multi-word helpers `add` and `submul`

Embedded from `src/lib/intx/div.cpp` lines 61–89. -/

/-- Word-by-word ripple-carry addition loop of `add` (div.cpp line 67–68):
`std::tie(s[i], carry) = add_with_carry(x[i], y[i], carry)`. -/
def addWords : List Nat → List Nat → Bool → List Nat × Bool
  | x :: xs, y :: ys, c =>
      let t := add_with_carry x y c
      let rest := addWords xs ys t.2
      (t.1 :: rest.1, rest.2)
  | _, _, c => ([], c)

/-- Embeds `add` (div.cpp lines 61–70): `s = x + y` over word arrays, returning
the sum array and the final carry. -/
def add (x y : List Nat) : List Nat × Bool := addWords x y false

/-- Word-by-word subtract-with-multiply loop of `submul` (div.cpp lines 79–87).
The C borrow update `borrow = p.hi + s.carry + t.carry` is a `uint64_t` sum;
it is embedded as a plain sum, which never wraps (see `submulWords_spec`). -/
def submulWords : List Nat → List Nat → Nat → Nat → List Nat × Nat
  | x :: xs, y :: ys, m, borrow =>
      let s := sub_with_carry x borrow
      let p := umul y m
      let t := sub_with_carry s.1 p.2
      let rest := submulWords xs ys m (p.1 + cval s.2 + cval t.2)
      (t.1 :: rest.1, rest.2)
  | _, _, _, borrow => ([], borrow)

/-- Embeds `submul` (div.cpp lines 73–89): `r = x - multiplier * y` over word
arrays, returning the result array and the final borrow. -/
def submul (x y : List Nat) (m : Nat) : List Nat × Nat := submulWords x y m 0

theorem addWords_spec : ∀ (x y : List Nat) (c : Bool),
    wordsBounded x → wordsBounded y → y.length = x.length →
    (addWords x y c).1.length = x.length ∧
    wordsBounded (addWords x y c).1 ∧
    wval (addWords x y c).1 + cval (addWords x y c).2 * base ^ x.length =
      wval x + wval y + cval c := by
  intro x
  induction x with
  | nil =>
      intro y c _ _ hlen
      have : y = [] := List.length_eq_zero.mp hlen
      subst this
      simp [addWords]
  | cons a xs ih =>
      intro y c hx hy hlen
      match y, hlen with
      | b :: ys, hlen =>
        rw [wordsBounded_cons] at hx hy
        have hlen' : ys.length = xs.length := by simpa using hlen
        have hstep := add_with_carry_spec a b c hx.1 hy.1
        have hrest := ih ys (add_with_carry a b c).2 hx.2 hy.2 hlen'
        simp only [addWords]
        refine ⟨by simp [hrest.1], ?_, ?_⟩
        · rw [wordsBounded_cons]
          exact ⟨hstep.1, hrest.2.1⟩
        · have h1 := hstep.2
          have h2 := hrest.2.2
          simp only [wval_cons, List.length_cons, pow_succ]
          zify at h1 h2 ⊢
          linear_combination h1 + (base : ℤ) * h2

/-- The `add` helper of div.cpp computes an exact word-array sum: the result
array plus the carry-out times `base ^ len` equals `x + y`. -/
theorem add_spec (x y : List Nat) (hx : wordsBounded x) (hy : wordsBounded y)
    (hlen : y.length = x.length) :
    (add x y).1.length = x.length ∧
    wordsBounded (add x y).1 ∧
    wval (add x y).1 + cval (add x y).2 * base ^ x.length = wval x + wval y := by
  have h := addWords_spec x y false hx hy hlen
  simpa [add, cval] using h

/-- One iteration of the `submul` loop body (div.cpp lines 82–86), as an exact
integer identity: the stored word equals `x[i] - borrow - y[i]*m` plus the
outgoing borrow times `base`, and the outgoing borrow is again a single word. -/
theorem submul_word_step (a b m borrow : Nat)
    (ha : a < base) (hbw : b < base) (hm : m < base) (hbr : borrow < base) :
    ((sub_with_carry (sub_with_carry a borrow).1 (umul b m).2).1 : ℤ) =
      (a : ℤ) - borrow - b * m +
        ((umul b m).1 + cval (sub_with_carry a borrow).2 +
          cval (sub_with_carry (sub_with_carry a borrow).1 (umul b m).2).2) * base ∧
    (sub_with_carry (sub_with_carry a borrow).1 (umul b m).2).1 < base ∧
    (umul b m).1 + cval (sub_with_carry a borrow).2 +
      cval (sub_with_carry (sub_with_carry a borrow).1 (umul b m).2).2 < base := by
  have hs := sub_with_carry_spec a borrow ha hbr
  have hp := umul_spec b m
  have ht := sub_with_carry_spec (sub_with_carry a borrow).1 (umul b m).2 hs.1 hp.2
  generalize hT : sub_with_carry (sub_with_carry a borrow).1 (umul b m).2 = T at *
  generalize hS : sub_with_carry a borrow = S at *
  generalize hP : umul b m = P at *
  have hsv : (S.1 : ℤ) = (a : ℤ) - borrow + cval S.2 * base := hs.2.1
  have htv : (T.1 : ℤ) = (S.1 : ℤ) - P.2 + cval T.2 * base := ht.2.1
  have hpv : (P.1 : ℤ) * base + P.2 = (b : ℤ) * m := by exact_mod_cast hp.1
  have hword : (T.1 : ℤ) = (a : ℤ) - borrow - b * m + (P.1 + cval S.2 + cval T.2) * base := by
    rw [htv, hsv]
    linarith [hpv]
  refine ⟨hword, ht.1, ?_⟩
  have htlt : (0 : ℤ) ≤ (T.1 : ℤ) := Int.ofNat_nonneg _
  have haz : (0 : ℤ) ≤ (a : ℤ) := Int.ofNat_nonneg _
  have hbrz : (borrow : ℤ) ≤ (base : ℤ) - 1 := by
    have : (borrow : ℤ) < base := by exact_mod_cast hbr
    omega
  have hbz : (b : ℤ) ≤ (base : ℤ) - 1 := by
    have : (b : ℤ) < base := by exact_mod_cast hbw
    omega
  have hmz : (m : ℤ) ≤ (base : ℤ) - 1 := by
    have : (m : ℤ) < base := by exact_mod_cast hm
    omega
  have hbm : (b : ℤ) * m ≤ ((base : ℤ) - 1) * ((base : ℤ) - 1) :=
    mul_le_mul hbz hmz (Int.ofNat_nonneg _) (by omega)
  have key : ((P.1 + cval S.2 + cval T.2 : Nat) : ℤ) * base < (base : ℤ) * base := by
    push_cast
    nlinarith [hword, hbm, htlt, haz, hbrz]
  have keyn : (P.1 + cval S.2 + cval T.2) * base < base * base := by exact_mod_cast key
  exact Nat.lt_of_mul_lt_mul_right keyn

theorem submulWords_spec : ∀ (x y : List Nat) (m borrow : Nat),
    wordsBounded x → wordsBounded y → y.length = x.length → m < base → borrow < base →
    (submulWords x y m borrow).1.length = x.length ∧
    wordsBounded (submulWords x y m borrow).1 ∧
    (submulWords x y m borrow).2 < base ∧
    (wval (submulWords x y m borrow).1 : ℤ) =
      (wval x : ℤ) - m * wval y - borrow +
        (submulWords x y m borrow).2 * (base : ℤ) ^ x.length := by
  intro x
  induction x with
  | nil =>
      intro y m borrow _ _ hlen hm hb
      have : y = [] := List.length_eq_zero.mp hlen
      subst this
      simp [submulWords, hb]
  | cons a xs ih =>
      intro y m borrow hx hy hlen hm hb
      match y, hlen with
      | b :: ys, hlen =>
        rw [wordsBounded_cons] at hx hy
        have hlen' : ys.length = xs.length := by simpa using hlen
        have hstep := submul_word_step a b m borrow hx.1 hy.1 hm hb
        have hrest := ih ys m _ hx.2 hy.2 hlen' hm hstep.2.2
        simp only [submulWords]
        refine ⟨by simp [hrest.1], ?_, hrest.2.2.1, ?_⟩
        · rw [wordsBounded_cons]
          exact ⟨hstep.2.1, hrest.2.1⟩
        · simp only [wval_cons, List.length_cons]
          have hiden := hrest.2.2.2
          have hword := hstep.1
          push_cast at hiden ⊢
          rw [hiden, hword]
          ring

/-- The `submul` helper of div.cpp computes the exact subtract-with-multiply:
over the integers, `value r = value x - m * value y + borrow * base ^ len`. -/
theorem submul_spec (x y : List Nat) (m : Nat) (hx : wordsBounded x)
    (hy : wordsBounded y) (hlen : y.length = x.length) (hm : m < base) :
    (submul x y m).1.length = x.length ∧
    wordsBounded (submul x y m).1 ∧
    (submul x y m).2 < base ∧
    (wval (submul x y m).1 : ℤ) =
      (wval x : ℤ) - m * wval y + (submul x y m).2 * (base : ℤ) ^ x.length := by
  have h := submulWords_spec x y m 0 hx hy hlen hm base_pos
  refine ⟨h.1, h.2.1, h.2.2.1, ?_⟩
  have := h.2.2.2
  simpa [submul] using this

/-! ### Single-word and double-word divisor paths

Embedded from `src/lib/intx/div.cpp` lines 18–58.  The C loops walk the
numerator array from the most significant of the remaining words down to word
0, threading the running remainder; on the little-endian list the recursion
descends into the tail (the more significant words) first and produces its own
quotient digit afterwards, which is the same order. -/

/-- Loop of `udivrem_by1` (div.cpp lines 27–31):
`std::tie(*it, rem) = udivrem_2by1({rem, *it}, d, reciprocal)`. -/
def by1Words (d rem0 : Nat) : List Nat → List Nat × Nat
  | [] => ([], rem0)
  | w :: ws =>
      let rest := by1Words d rem0 ws
      let qr := udivrem_2by1 rest.2 w d
      (qr.1 :: rest.1, qr.2)

/-- Embeds `udivrem_by1` (div.cpp lines 18–34): seed the remainder with the top
word, zero that slot (it becomes part of the quotient), then divide the
remaining words from the second-highest down to word 0.  Returns the mutated
numerator array (now the quotient) together with the remainder. -/
def udivrem_by1 (u : List Nat) (d : Nat) : List Nat × Nat :=
  let rem0 := u.getD (u.length - 1) 0
  let lp := by1Words d rem0 (u.take (u.length - 1))
  (lp.1 ++ [0], lp.2)

/-- Loop of `udivrem_by2` (div.cpp lines 51–55):
`std::tie(*it, rem) = udivrem_3by2(rem.hi, rem.lo, *it, d, reciprocal)`.
The 2-word running remainder is kept as a single `Nat` below `base ^ 2`. -/
def by2Words (d rem0 : Nat) : List Nat → List Nat × Nat
  | [] => ([], rem0)
  | w :: ws =>
      let rest := by2Words d rem0 ws
      let qr := udivrem_3by2 (rest.2 / base) (rest.2 % base) w d
      (qr.1 :: rest.1, qr.2)

/-- Embeds `udivrem_by2` (div.cpp lines 42–58): seed the 2-word remainder with
the two top words, zero those slots, then divide the remaining words from the
third-highest down to word 0. -/
def udivrem_by2 (u : List Nat) (d : Nat) : List Nat × Nat :=
  let rem0 := (u.getD (u.length - 1) 0) * base + u.getD (u.length - 2) 0
  let lp := by2Words d rem0 (u.take (u.length - 2))
  (lp.1 ++ [0, 0], lp.2)

/-- Splitting an exact division step: absorbing a new low word `w` into a
running remainder `r' = V' % d` extends the quotient by one exact digit. -/
theorem div_step (d w r' V' : Nat) (hd : 0 < d) (hr : r' = V' % d) :
    (w + base * r') / d + base * (V' / d) = (w + base * V') / d ∧
    (w + base * r') % d = (w + base * V') % d := by
  have h := Nat.div_add_mod V' d
  have key : w + base * V' = (w + base * (V' % d)) + base * (V' / d) * d := by
    conv_lhs => rw [← h]
    ring
  subst hr
  constructor
  · rw [key, Nat.add_mul_div_right _ _ hd]
  · rw [key, Nat.add_mul_mod_self_right]

theorem by1Words_spec (d : Nat) (hd : 0 < d) :
    ∀ (body : List Nat) (rem0 : Nat), wordsBounded body → rem0 < d →
    (by1Words d rem0 body).1.length = body.length ∧
    wordsBounded (by1Words d rem0 body).1 ∧
    wval (by1Words d rem0 body).1 = (wval body + rem0 * base ^ body.length) / d ∧
    (by1Words d rem0 body).2 = (wval body + rem0 * base ^ body.length) % d := by
  intro body
  induction body with
  | nil =>
      intro rem0 _ hrem
      simp [by1Words, Nat.div_eq_of_lt hrem, Nat.mod_eq_of_lt hrem]
  | cons w ws ih =>
      intro rem0 hb hrem
      rw [wordsBounded_cons] at hb
      have hrest := ih rem0 hb.2 hrem
      have hrlt : (by1Words d rem0 ws).2 < d := by
        rw [hrest.2.2.2]
        exact Nat.mod_lt _ hd
      -- the new digit is an exact 2-by-1 division step and fits in one word
      have hnum : (by1Words d rem0 ws).2 * base + w < d * base := by
        have h1 : (by1Words d rem0 ws).2 * base + w < ((by1Words d rem0 ws).2 + 1) * base := by
          have := hb.1
          nlinarith
        have h2 : ((by1Words d rem0 ws).2 + 1) * base ≤ d * base :=
          Nat.mul_le_mul_right base hrlt
        exact Nat.lt_of_lt_of_le h1 h2
      have hdig : (udivrem_2by1 (by1Words d rem0 ws).2 w d).1 < base := by
        unfold udivrem_2by1
        exact Nat.div_lt_of_lt_mul hnum
      have hstep := div_step d w (by1Words d rem0 ws).2
        (wval ws + rem0 * base ^ ws.length) hd hrest.2.2.2
      have hcomm : (by1Words d rem0 ws).2 * base + w = w + base * (by1Words d rem0 ws).2 :=
        by ring
      simp only [by1Words, udivrem_2by1]
      refine ⟨by simp [hrest.1], ?_, ?_, ?_⟩
      · rw [wordsBounded_cons]
        exact ⟨hdig, hrest.2.1⟩
      · simp only [wval_cons, List.length_cons]
        rw [hrest.2.2.1, hcomm, hstep.1]
        congr 1
        ring
      · simp only [wval_cons, List.length_cons]
        rw [hcomm, hstep.2]
        congr 1
        ring

theorem by2Words_spec (d : Nat) (hd : 0 < d) (hdb : d < base ^ 2) :
    ∀ (body : List Nat) (rem0 : Nat), wordsBounded body → rem0 < d →
    (by2Words d rem0 body).1.length = body.length ∧
    wordsBounded (by2Words d rem0 body).1 ∧
    wval (by2Words d rem0 body).1 = (wval body + rem0 * base ^ body.length) / d ∧
    (by2Words d rem0 body).2 = (wval body + rem0 * base ^ body.length) % d := by
  intro body
  induction body with
  | nil =>
      intro rem0 _ hrem
      simp [by2Words, Nat.div_eq_of_lt hrem, Nat.mod_eq_of_lt hrem]
  | cons w ws ih =>
      intro rem0 hb hrem
      rw [wordsBounded_cons] at hb
      have hrest := ih rem0 hb.2 hrem
      have hrlt : (by2Words d rem0 ws).2 < d := by
        rw [hrest.2.2.2]
        exact Nat.mod_lt _ hd
      have hnum : (by2Words d rem0 ws).2 * base + w < d * base := by
        have h1 : (by2Words d rem0 ws).2 * base + w < ((by2Words d rem0 ws).2 + 1) * base := by
          have := hb.1
          nlinarith
        have h2 : ((by2Words d rem0 ws).2 + 1) * base ≤ d * base :=
          Nat.mul_le_mul_right base hrlt
        exact Nat.lt_of_lt_of_le h1 h2
      -- reassemble the split 2-word remainder fed to the 3-by-2 step
      have hjoin : (by2Words d rem0 ws).2 / base * base ^ 2
          + (by2Words d rem0 ws).2 % base * base + w
          = w + base * (by2Words d rem0 ws).2 := by
        have h := Nat.div_add_mod (by2Words d rem0 ws).2 base
        calc (by2Words d rem0 ws).2 / base * base ^ 2
              + (by2Words d rem0 ws).2 % base * base + w
            = (base * ((by2Words d rem0 ws).2 / base)
                + (by2Words d rem0 ws).2 % base) * base + w := by ring
          _ = w + base * (by2Words d rem0 ws).2 := by rw [h]; ring
      have hdig : (udivrem_3by2 ((by2Words d rem0 ws).2 / base)
          ((by2Words d rem0 ws).2 % base) w d).1 < base := by
        unfold udivrem_3by2
        rw [hjoin]
        refine Nat.div_lt_of_lt_mul ?_
        calc w + base * (by2Words d rem0 ws).2
            = (by2Words d rem0 ws).2 * base + w := by ring
          _ < d * base := hnum
      have hstep := div_step d w (by2Words d rem0 ws).2
        (wval ws + rem0 * base ^ ws.length) hd hrest.2.2.2
      simp only [by2Words, udivrem_3by2]
      refine ⟨by simp [hrest.1], ?_, ?_, ?_⟩
      · rw [wordsBounded_cons]
        refine ⟨?_, hrest.2.1⟩
        have := hdig
        simpa [udivrem_3by2] using this
      · simp only [wval_cons, List.length_cons]
        rw [hrest.2.2.1, hjoin, hstep.1]
        congr 1
        ring
      · simp only [wval_cons, List.length_cons]
        rw [hjoin, hstep.2]
        congr 1
        ring

/-- The single-word path `udivrem_by1` computes the exact quotient and
remainder: it zeroes the top slot, stores the exact quotient digits, and
returns `U % d`, provided the numerator is normalized for `d` (top word
below `d`). -/
theorem udivrem_by1_spec (u : List Nat) (d : Nat) (hlen : 2 ≤ u.length)
    (hu : wordsBounded u) (hd : 0 < d)
    (htop : u.getD (u.length - 1) 0 < d) :
    (udivrem_by1 u d).1.length = u.length ∧
    wordsBounded (udivrem_by1 u d).1 ∧
    (udivrem_by1 u d).1.getD (u.length - 1) 0 = 0 ∧
    wval (udivrem_by1 u d).1 = wval u / d ∧
    (udivrem_by1 u d).2 = wval u % d := by
  set k := u.length - 1 with hkdef
  have htl : (u.take k).length = k := by
    rw [List.length_take]
    omega
  have hdl : (u.drop k).length = 1 := by
    rw [List.length_drop]
    omega
  obtain ⟨x, hx⟩ := List.length_eq_one.mp hdl
  have hsplit : u = u.take k ++ [x] := by
    conv_lhs => rw [← List.take_append_drop k u]
    rw [hx]
  have hgetD : u.getD k 0 = x := by
    conv_lhs => rw [hsplit]
    rw [List.getD_append_right _ _ _ _ (le_of_eq htl), htl]
    simp
  have hval : wval u = wval (u.take k) + x * base ^ k := by
    conv_lhs => rw [hsplit]
    rw [wval_append, htl]
    simp [wval]
    ring
  have hbody : wordsBounded (u.take k) := wordsBounded_take k hu
  have hx_lt : x < d := by
    rw [← hgetD]
    exact htop
  have hlp := by1Words_spec d hd (u.take k) x hbody hx_lt
  rw [htl] at hlp
  unfold udivrem_by1
  rw [← hkdef, hgetD]
  refine ⟨?_, ?_, ?_, ?_, ?_⟩
  · rw [List.length_append, hlp.1]
    simp
    omega
  · rw [wordsBounded_append]
    refine ⟨hlp.2.1, ?_⟩
    intro w hw
    simp at hw
    subst hw
    exact base_pos
  · rw [List.getD_append_right _ _ _ _ (by rw [hlp.1])]
    exact getD_single_zero _
  · rw [wval_append, hlp.1]
    simp only [wval]
    rw [hlp.2.2.1, hval]
    ring_nf
  · rw [hlp.2.2.2, hval]

/-- The double-word path `udivrem_by2` computes the exact quotient and
remainder, provided the numerator is normalized for the 2-word divisor `d`
(top two words below `d`). -/
theorem udivrem_by2_spec (u : List Nat) (d : Nat) (hlen : 3 ≤ u.length)
    (hu : wordsBounded u) (hd : 0 < d) (hdb : d < base ^ 2)
    (htop : u.getD (u.length - 1) 0 * base + u.getD (u.length - 2) 0 < d) :
    (udivrem_by2 u d).1.length = u.length ∧
    wordsBounded (udivrem_by2 u d).1 ∧
    wval (udivrem_by2 u d).1 = wval u / d ∧
    (udivrem_by2 u d).2 = wval u % d := by
  set k := u.length - 2 with hkdef
  have htl : (u.take k).length = k := by
    rw [List.length_take]
    omega
  have hdl : (u.drop k).length = 2 := by
    rw [List.length_drop]
    omega
  obtain ⟨x, y, hxy⟩ := List.length_eq_two.mp hdl
  have hsplit : u = u.take k ++ [x, y] := by
    conv_lhs => rw [← List.take_append_drop k u]
    rw [hxy]
  have hgx : u.getD k 0 = x := by
    conv_lhs => rw [hsplit]
    rw [List.getD_append_right _ _ _ _ (le_of_eq htl), htl]
    simp
  have hgy : u.getD (k + 1) 0 = y := by
    conv_lhs => rw [hsplit]
    rw [List.getD_append_right _ _ _ _ (by omega), htl]
    simp
  have hval : wval u = wval (u.take k) + (y * base + x) * base ^ k := by
    conv_lhs => rw [hsplit]
    rw [wval_append, htl]
    simp [wval]
    ring
  have hbody : wordsBounded (u.take k) := wordsBounded_take k hu
  have hidx1 : u.length - 1 = k + 1 := by omega
  have hrem0 : u.getD (u.length - 1) 0 * base + u.getD (u.length - 2) 0
      = y * base + x := by
    rw [hidx1, ← hkdef, hgx, hgy]
  have hx_lt : y * base + x < d := by
    rw [← hrem0]
    exact htop
  have hlp := by2Words_spec d hd hdb (u.take k) (y * base + x) hbody hx_lt
  rw [htl] at hlp
  unfold udivrem_by2
  rw [← hkdef, hrem0]
  refine ⟨?_, ?_, ?_, ?_⟩
  · rw [List.length_append, hlp.1]
    simp
    omega
  · rw [wordsBounded_append]
    refine ⟨hlp.2.1, ?_⟩
    intro w hw
    simp at hw
    subst hw
    exact base_pos
  · rw [wval_append, hlp.1]
    simp only [wval]
    rw [hlp.2.2.1, hval]
    ring_nf
  · rw [hlp.2.2.2, hval]

/-! ### Knuth divider

Embedded from `src/lib/intx/div.cpp` lines 91–130.  The C function mutates the
numerator array `u` in place; the embedding threads the whole list through the
loop.  Array reads `u[i]` become `List.getD u i 0`, the window write of
`submul`/`add` results becomes `setSeg`, and single-slot writes become
`List.set`. -/

/-- Read of the contiguous word window `u[j .. j+len-1]`. -/
def seg (u : List Nat) (j len : Nat) : List Nat := (u.drop j).take len

/-- Write of a contiguous word window starting at index `j`. -/
def setSeg (u : List Nat) (j : Nat) (r : List Nat) : List Nat :=
  u.take j ++ r ++ u.drop (j + r.length)

/-- Wrapping `uint64_t` subtraction `x - y` (used for `u2 - submul(...)` in
div.cpp line 109). -/
def wsub (x y : Nat) : Nat := (base + x - y % base) % base

/-- Wrapping `uint64_t` addition `x + y` (used for `u[j+dlen-1] += ...` in
div.cpp line 124). -/
def wadd (x y : Nat) : Nat := (x + y) % base

/-- One iteration (index `j`) of the main loop of `udivrem_knuth`
(div.cpp lines 98–129): returns the quotient digit `q[j]` and the updated
numerator array. -/
def knuth_step (d : List Nat) (u : List Nat) (j : Nat) : Nat × List Nat :=
  let dlen := d.length
  let u2 := u.getD (j + dlen) 0
  let u1 := u.getD (j + dlen - 1) 0
  let u0 := u.getD (j + dlen - 2) 0
  let divisor := (d.getD (dlen - 1) 0) * base + d.getD (dlen - 2) 0
  if u2 * base + u1 = divisor then
    -- division overflows: qhat = ~uint64_t{0}
    let qhat := base - 1
    let sm := submul (seg u j dlen) d qhat
    let u' := setSeg u j sm.1
    (qhat, u'.set (j + dlen) (wsub u2 sm.2))
  else
    let qr := udivrem_3by2 u2 u1 u0 divisor
    let qhat := qr.1
    let rhat := qr.2
    let sm := submul (seg u j (dlen - 2)) (d.take (dlen - 2)) qhat
    let t0 := sub_with_carry (rhat % base) sm.2
    let t1 := sub_with_carry (rhat / base) (cval t0.2)
    let u' := ((setSeg u j sm.1).set (j + dlen - 2) t0.1).set (j + dlen - 1) t1.1
    if t1.2 then
      -- the trial digit was one too large: add the divisor back
      let ad := add (seg u' j (dlen - 1)) (d.take (dlen - 1))
      let u'' := setSeg u' j ad.1
      (qhat - 1, u''.set (j + dlen - 1)
        (wadd (u''.getD (j + dlen - 1) 0) (d.getD (dlen - 1) 0 + cval ad.2)))
    else
      (qhat, u')

/-- The main loop of `udivrem_knuth` (div.cpp line 98):
`for (int j = ulen - dlen - 1; j >= 0; --j)`, run with `cnt = ulen - dlen`
iterations; returns the little-endian list of quotient digits
`q[0 .. cnt-1]` and the final numerator array. -/
def knuth_loop (d : List Nat) : Nat → List Nat → List Nat × List Nat
  | 0, u => ([], u)
  | j + 1, u =>
      let st := knuth_step d u j
      let rest := knuth_loop d j st.2
      (rest.1 ++ [st.1], rest.2)

/-- Embeds `udivrem_knuth` (div.cpp lines 91–130).  The array lengths `ulen`
and `dlen` are the list lengths. -/
def udivrem_knuth (u : List Nat) (d : List Nat) : List Nat × List Nat :=
  knuth_loop d (u.length - d.length) u
theorem submulWords_length : ∀ (x y : List Nat) (m b : Nat),
    (submulWords x y m b).1.length = min x.length y.length := by
  intro x
  induction x with
  | nil => intro y m b; cases y <;> simp [submulWords]
  | cons a xs ih =>
      intro y m b
      cases y with
      | nil => simp [submulWords]
      | cons b' ys => simp [submulWords, ih]; omega

theorem addWords_length : ∀ (x y : List Nat) (c : Bool),
    (addWords x y c).1.length = min x.length y.length := by
  intro x
  induction x with
  | nil => intro y c; cases y <;> simp [addWords]
  | cons a xs ih =>
      intro y c
      cases y with
      | nil => simp [addWords]
      | cons b' ys => simp [addWords, ih]; omega

theorem getD_append_add (P rest : List Nat) (i x : Nat) :
    (P ++ rest).getD (P.length + i) x = rest.getD i x := by
  rw [List.getD_append_right _ _ _ _ (by omega), Nat.add_sub_cancel_left]

theorem set_append_add (P rest : List Nat) (i : Nat) (x : Nat) :
    (P ++ rest).set (P.length + i) x = P ++ rest.set i x := by
  rw [List.set_append_right _ _ (by omega), Nat.add_sub_cancel_left]

theorem seg_append (P rest : List Nat) (k : Nat) :
    seg (P ++ rest) P.length k = rest.take k := by
  unfold seg
  rw [List.drop_left]

theorem setSeg_append (P rest r : List Nat) :
    setSeg (P ++ rest) P.length r = P ++ r ++ rest.drop r.length := by
  unfold setSeg
  rw [List.take_left, List.drop_append, List.append_assoc]

/-- Overflow branch of one Knuth step, on a decomposed numerator window. -/
theorem knuth_step_overflow_shape (dl P wl S : List Nat) (a b c d1 d2 j : Nat)
    (hP : P.length = j) (hwl : wl.length = dl.length)
    (hob : c * base + b = d2 * base + d1) :
    knuth_step (dl ++ [d1, d2]) (P ++ (wl ++ ([a, b, c] ++ S))) j =
      (base - 1,
       P ++ ((submul (wl ++ [a, b]) (dl ++ [d1, d2]) (base - 1)).1 ++
         (wsub c (submul (wl ++ [a, b]) (dl ++ [d1, d2]) (base - 1)).2 :: S))) := by
  subst hP
  have hdlen : (dl ++ [d1, d2]).length = dl.length + 2 := by simp
  have e2 : (P ++ (wl ++ ([a, b, c] ++ S))).getD (P.length + (dl ++ [d1, d2]).length) 0
      = c := by
    rw [hdlen, getD_append_add, ← hwl, getD_append_add]
    rfl
  have e1 : (P ++ (wl ++ ([a, b, c] ++ S))).getD (P.length + (dl ++ [d1, d2]).length - 1) 0
      = b := by
    rw [hdlen, show P.length + (dl.length + 2) - 1 = P.length + (dl.length + 1) from by omega,
      getD_append_add, ← hwl, getD_append_add]
    rfl
  have ed2 : (dl ++ [d1, d2]).getD ((dl ++ [d1, d2]).length - 1) 0 = d2 := by
    rw [hdlen, show dl.length + 2 - 1 = dl.length + 1 from by omega, getD_append_add]
    rfl
  have ed1 : (dl ++ [d1, d2]).getD ((dl ++ [d1, d2]).length - 2) 0 = d1 := by
    rw [hdlen, show dl.length + 2 - 2 = dl.length + 0 from by omega, getD_append_add]
    rfl
  have eseg : seg (P ++ (wl ++ ([a, b, c] ++ S))) P.length (dl ++ [d1, d2]).length
      = wl ++ [a, b] := by
    rw [seg_append, hdlen, ← hwl, List.take_append]
    rfl
  have hsml : (submul (wl ++ [a, b]) (dl ++ [d1, d2]) (base - 1)).1.length
      = (dl ++ [d1, d2]).length := by
    unfold submul
    rw [submulWords_length]
    simp
    omega
  simp only [knuth_step]
  rw [e2, e1, ed2, ed1, if_pos hob, eseg, setSeg_append]
  have hdrop : (wl ++ ([a, b, c] ++ S)).drop
      (submul (wl ++ [a, b]) (dl ++ [d1, d2]) (base - 1)).1.length = c :: S := by
    rw [hsml, hdlen, ← hwl, List.drop_append]
    rfl
  rw [hdrop]
  have hidx : P.length + (dl ++ [d1, d2]).length
      = (P ++ (submul (wl ++ [a, b]) (dl ++ [d1, d2]) (base - 1)).1).length + 0 := by
    simp [hsml]
  rw [hidx, set_append_add]
  simp

/-- Normal branch of one Knuth step, on a decomposed numerator window. -/
theorem knuth_step_normal_shape (dl P wl S : List Nat) (a b c d1 d2 j qhat rhat : Nat)
    (hP : P.length = j) (hwl : wl.length = dl.length)
    (hob : c * base + b ≠ d2 * base + d1)
    (hqr : udivrem_3by2 c b a (d2 * base + d1) = (qhat, rhat)) :
    knuth_step (dl ++ [d1, d2]) (P ++ (wl ++ ([a, b, c] ++ S))) j =
      (let sm := submul wl dl qhat
       let t0 := sub_with_carry (rhat % base) sm.2
       let t1 := sub_with_carry (rhat / base) (cval t0.2)
       if t1.2 then
         let ad := add (sm.1 ++ [t0.1]) (dl ++ [d1])
         (qhat - 1, P ++ (ad.1 ++ ([wadd t1.1 (d2 + cval ad.2), c] ++ S)))
       else
         (qhat, P ++ (sm.1 ++ ([t0.1, t1.1, c] ++ S)))) := by
  subst hP
  have hdlen : (dl ++ [d1, d2]).length = dl.length + 2 := by simp
  have e2 : (P ++ (wl ++ ([a, b, c] ++ S))).getD (P.length + (dl ++ [d1, d2]).length) 0
      = c := by
    rw [hdlen, getD_append_add, ← hwl, getD_append_add]
    rfl
  have e1 : (P ++ (wl ++ ([a, b, c] ++ S))).getD (P.length + (dl ++ [d1, d2]).length - 1) 0
      = b := by
    rw [hdlen, show P.length + (dl.length + 2) - 1 = P.length + (dl.length + 1) from by omega,
      getD_append_add, ← hwl, getD_append_add]
    rfl
  have e0 : (P ++ (wl ++ ([a, b, c] ++ S))).getD (P.length + (dl ++ [d1, d2]).length - 2) 0
      = a := by
    rw [hdlen, show P.length + (dl.length + 2) - 2 = P.length + (dl.length + 0) from by omega,
      getD_append_add, ← hwl, getD_append_add]
    rfl
  have ed2 : (dl ++ [d1, d2]).getD ((dl ++ [d1, d2]).length - 1) 0 = d2 := by
    rw [hdlen, show dl.length + 2 - 1 = dl.length + 1 from by omega, getD_append_add]
    rfl
  have ed1 : (dl ++ [d1, d2]).getD ((dl ++ [d1, d2]).length - 2) 0 = d1 := by
    rw [hdlen, show dl.length + 2 - 2 = dl.length + 0 from by omega, getD_append_add]
    rfl
  have eseg : seg (P ++ (wl ++ ([a, b, c] ++ S))) P.length ((dl ++ [d1, d2]).length - 2)
      = wl := by
    rw [seg_append, hdlen, show dl.length + 2 - 2 = wl.length from by omega, List.take_left]
  have etake : (dl ++ [d1, d2]).take ((dl ++ [d1, d2]).length - 2) = dl := by
    rw [hdlen, show dl.length + 2 - 2 = dl.length from by omega, List.take_left]
  have hsml : (submul wl dl qhat).1.length = wl.length := by
    unfold submul
    rw [submulWords_length]
    omega
  simp only [knuth_step]
  rw [e2, e1, e0, ed2, ed1, if_neg hob, hqr, eseg, etake]
  simp only
  rw [setSeg_append]
  have hdrop : (wl ++ ([a, b, c] ++ S)).drop (submul wl dl qhat).1.length
      = [a, b, c] ++ S := by
    rw [hsml, List.drop_left]
  rw [hdrop]
  have hidx2 : P.length + (dl ++ [d1, d2]).length - 2
      = (P ++ (submul wl dl qhat).1).length + 0 := by
    simp [hsml]
    omega
  rw [hidx2, set_append_add]
  simp only [List.cons_append, List.nil_append, List.set_cons_zero]
  have hidx1 : P.length + (dl ++ [d1, d2]).length - 1
      = (P ++ (submul wl dl qhat).1).length + 1 := by
    simp [hsml]
    omega
  rw [hidx1, set_append_add]
  simp only [List.set_cons_succ, List.set_cons_zero, List.nil_append]
  set sm := submul wl dl qhat with hsm
  set t0 := sub_with_carry (rhat % base) sm.2 with ht0
  set t1 := sub_with_carry (rhat / base) (cval t0.2) with ht1
  by_cases hc : t1.2
  · rw [if_pos hc, if_pos hc]
    have esega : seg (P ++ sm.1 ++ (t0.1 :: t1.1 :: c :: S)) P.length
        ((dl ++ [d1, d2]).length - 1) = sm.1 ++ [t0.1] := by
      rw [List.append_assoc, seg_append, hdlen,
        show dl.length + 2 - 1 = sm.1.length + 1 from by rw [hsml]; omega,
        List.take_append]
      rfl
    have etake1 : (dl ++ [d1, d2]).take ((dl ++ [d1, d2]).length - 1) = dl ++ [d1] := by
      rw [hdlen, show dl.length + 2 - 1 = dl.length + 1 from by omega, List.take_append]
      rfl
    rw [esega, etake1]
    have hadl : (add (sm.1 ++ [t0.1]) (dl ++ [d1])).1.length = sm.1.length + 1 := by
      unfold add
      rw [addWords_length]
      simp [hsml]
      omega
    rw [List.append_assoc, setSeg_append]
    have hdrop2 : (sm.1 ++ (t0.1 :: t1.1 :: c :: S)).drop
        (add (sm.1 ++ [t0.1]) (dl ++ [d1])).1.length = t1.1 :: c :: S := by
      rw [hadl, show sm.1.length + 1 = sm.1.length + 1 from rfl]
      rw [List.drop_append 1]
      rfl
    rw [hdrop2]
    have hidx3 : (P ++ sm.1).length + 1
        = (P ++ (add (sm.1 ++ [t0.1]) (dl ++ [d1])).1).length + 0 := by
      simp [hadl]
      omega
    rw [hidx3, getD_append_add, set_append_add]
    simp
  · rw [if_neg hc, if_neg hc]
    simp

/-- Lower bound of the Knuth trial digit: the 3-by-2 estimate is never below
the true quotient digit. -/
theorem knuth_qt_le_qhat (X N3 V2 Dlow k : Nat)
    (hX : X < base ^ k) (hV2 : 0 < V2) :
    (X + N3 * base ^ k) / (Dlow + V2 * base ^ k) ≤ N3 / V2 := by
  set D := Dlow + V2 * base ^ k with hD
  set qt := (X + N3 * base ^ k) / D with hqt
  have h1 : qt * D ≤ X + N3 * base ^ k := Nat.div_mul_le_self _ _
  have h2 : qt * (V2 * base ^ k) ≤ qt * D :=
    Nat.mul_le_mul_left _ (by omega)
  have h3 : qt * V2 * base ^ k < (N3 + 1) * base ^ k := by
    calc qt * V2 * base ^ k = qt * (V2 * base ^ k) := by ring
      _ ≤ X + N3 * base ^ k := le_trans h2 h1
      _ < (N3 + 1) * base ^ k := by
          have hp : 0 < base ^ k := Nat.pos_pow_of_pos k base_pos
          nlinarith
  have h4 : qt * V2 < N3 + 1 :=
    Nat.lt_of_mul_lt_mul_right h3
  exact (Nat.le_div_iff_mul_le hV2).mpr (by omega)

/-- A 2-word value is below `base ^ 2`. -/
theorem two_word_lt (d1 d2 : Nat) (hd1 : d1 < base) (hd2 : d2 < base) :
    d2 * base + d1 < base * base := by
  calc d2 * base + d1 < d2 * base + base := by omega
    _ = (d2 + 1) * base := by ring
    _ ≤ base * base := Nat.mul_le_mul_right _ (by omega)

/-- A divisor of `k + 2` bounded words is below `base ^ (k + 2)`. -/
theorem low_plus_two_lt (Dlow V2 k : Nat) (hDlow : Dlow < base ^ k)
    (hV2 : V2 < base * base) :
    Dlow + V2 * base ^ k < base ^ k * base ^ 2 := by
  have h1 : V2 * base ^ k ≤ (base * base - 1) * base ^ k :=
    Nat.mul_le_mul_right _ (by omega)
  have h2 : (base * base - 1) * base ^ k = base * base * base ^ k - base ^ k := by
    rw [Nat.sub_mul, one_mul]
  have h3 : base * base * base ^ k = base ^ k * base ^ 2 := by ring
  have h4 : base ^ k ≤ base * base * base ^ k := by
    have hp : 0 < base * base := by decide
    exact Nat.le_mul_of_pos_left _ hp
  omega

/-- A window of `k + 2` bounded words is below `base ^ (k + 2)`. -/
theorem window_lt (smv t0v t1v k : Nat) (hs : smv < base ^ k)
    (h0 : t0v < base) (h1 : t1v < base) :
    smv + t0v * base ^ k + t1v * (base ^ k * base) < base ^ k * base ^ 2 := by
  have e1 : t0v * base ^ k ≤ (base - 1) * base ^ k := Nat.mul_le_mul_right _ (by omega)
  have e2 : t1v * (base ^ k * base) ≤ (base - 1) * (base ^ k * base) :=
    Nat.mul_le_mul_right _ (by omega)
  have e3 : (base - 1) * base ^ k = base * base ^ k - base ^ k := by
    rw [Nat.sub_mul, one_mul]
  have e4 : (base - 1) * (base ^ k * base) = base * (base ^ k * base) - base ^ k * base := by
    rw [Nat.sub_mul, one_mul]
  have e5 : base ^ k ≤ base * base ^ k := Nat.le_mul_of_pos_left _ base_pos
  have e6 : base ^ k * base ≤ base * (base ^ k * base) := Nat.le_mul_of_pos_left _ base_pos
  have e7 : base * (base ^ k * base) = base ^ k * base ^ 2 := by ring
  have e8 : base * base ^ k = base ^ k * base := by ring
  omega

/-- Upper bound of the Knuth trial digit: with a normalized divisor the 3-by-2
estimate is at most one above the true quotient digit. -/
theorem knuth_qhat_le_qt_succ (X N3 V2 Dlow k : Nat)
    (hDlow : Dlow < base ^ k) (hV2 : base - 1 ≤ V2) (hN3 : N3 < V2 * base) :
    N3 / V2 ≤ (X + N3 * base ^ k) / (Dlow + V2 * base ^ k) + 1 := by
  have hbase1 : (1 : Nat) < base := by decide
  have hV2p : 0 < V2 := by omega
  rcases Nat.eq_zero_or_pos (N3 / V2) with h0 | hpos
  · rw [h0]
    exact Nat.zero_le _
  obtain ⟨t, ht'⟩ := Nat.exists_eq_add_of_le hpos
  have ht : N3 / V2 = 1 + t := by omega
  have hqm : (1 + t) * V2 ≤ N3 := by
    rw [← ht, Nat.mul_comm]
    exact Nat.mul_div_le N3 V2
  have hexpand : (1 + t) * V2 = V2 + t * V2 := by ring
  have hV2N3 : V2 ≤ N3 := by omega
  have hqb : 1 + t < base := by
    have h := (Nat.div_lt_iff_lt_mul hV2p).mpr (by rw [Nat.mul_comm]; exact hN3)
    omega
  have htV2 : t * V2 ≤ N3 - V2 := by omega
  have htle : t ≤ V2 := by omega
  have htDlow : t * Dlow ≤ V2 * base ^ k :=
    Nat.mul_le_mul htle (le_of_lt hDlow)
  have htD : t * (Dlow + V2 * base ^ k) ≤ X + N3 * base ^ k := by
    have h1 : t * (Dlow + V2 * base ^ k) = t * Dlow + t * V2 * base ^ k := by ring
    have h2 : t * V2 * base ^ k ≤ (N3 - V2) * base ^ k :=
      Nat.mul_le_mul_right _ htV2
    have h3 : V2 * base ^ k + (N3 - V2) * base ^ k = N3 * base ^ k := by
      rw [← Nat.add_mul]
      congr 1
      omega
    omega
  have hD0 : 0 < Dlow + V2 * base ^ k := by
    have hp : 0 < base ^ k := Nat.pos_pow_of_pos k base_pos
    have : 0 < V2 * base ^ k := Nat.mul_pos hV2p hp
    omega
  have hfin : t ≤ (X + N3 * base ^ k) / (Dlow + V2 * base ^ k) :=
    (Nat.le_div_iff_mul_le hD0).mpr htD
  omega

/-- The 2-word borrow-propagating subtraction of a 1-word value performed in
div.cpp lines 118-119: exact integer characterization. -/
theorem sub2_spec (rh ov : Nat) (hrh : rh < base ^ 2) (hov : ov < base) :
    ((sub_with_carry (rh % base) ov).1 : ℤ)
      + (sub_with_carry (rh / base) (cval (sub_with_carry (rh % base) ov).2)).1 * base
      = (rh : ℤ) - ov
        + cval (sub_with_carry (rh / base) (cval (sub_with_carry (rh % base) ov).2)).2
          * base ^ 2 ∧
    (sub_with_carry (rh % base) ov).1 < base ∧
    (sub_with_carry (rh / base) (cval (sub_with_carry (rh % base) ov).2)).1 < base ∧
    ((sub_with_carry (rh / base) (cval (sub_with_carry (rh % base) ov).2)).2 = true
      ↔ rh < ov) := by
  have hlo : rh % base < base := Nat.mod_lt _ base_pos
  have hhi : rh / base < base := by
    rw [Nat.div_lt_iff_lt_mul base_pos]
    calc rh < base ^ 2 := hrh
      _ = base * base := by ring
  have hcv : cval (sub_with_carry (rh % base) ov).2 < base := by
    have := cval_le_one (sub_with_carry (rh % base) ov).2
    have h1 : (1 : Nat) < base := by decide
    omega
  have h0 := sub_with_carry_spec (rh % base) ov hlo hov
  have h1 := sub_with_carry_spec (rh / base)
    (cval (sub_with_carry (rh % base) ov).2) hhi hcv
  have hdm : (base : ℤ) * ((rh : Nat) / base : Nat) + ((rh : Nat) % base : Nat) = (rh : ℤ) := by
    exact_mod_cast Nat.div_add_mod rh base
  generalize hT0 : sub_with_carry (rh % base) ov = T0 at *
  generalize hT1 : sub_with_carry (rh / base) (cval T0.2) = T1 at *
  refine ⟨?_, h0.1, h1.1, ?_⟩
  · rw [h0.2.1, h1.2.1]
    linear_combination hdm
  · rw [h1.2.2]
    rcases Bool.eq_false_or_eq_true T0.2 with hb | hb
    · -- borrow from the low word: rh % base < ov
      rw [hb]
      have hlt : rh % base < ov := (h0.2.2).mp hb
      simp only [cval_true]
      have hdm' := Nat.div_add_mod rh base
      constructor
      · intro h2
        have hz : rh / base = 0 := Nat.lt_one_iff.mp h2
        rw [hz] at hdm'
        omega
      · intro h2
        have hz : rh / base = 0 := by
          by_contra hnz
          have h3 : 1 ≤ rh / base := Nat.pos_of_ne_zero hnz
          have h4 : base ≤ base * (rh / base) := by
            calc base = base * 1 := by ring
              _ ≤ base * (rh / base) := Nat.mul_le_mul_left base h3
          omega
        omega
    · -- no borrow from the low word: ov ≤ rh % base ≤ rh
      rw [hb]
      have hge : ¬ rh % base < ov := by
        intro hlt
        have h2 := (h0.2.2).mpr hlt
        rw [hb] at h2
        exact Bool.false_ne_true h2
      have hmod_le : ov ≤ rh % base := by omega
      have hle : ov ≤ rh := le_trans hmod_le (Nat.mod_le rh base)
      constructor
      · intro hlt
        simp [cval] at hlt
      · intro hlt
        omega

/-- Arithmetic core of the normal branch without correction: when the 2-word
borrow combination does not underflow, the trial digit is exact and the stored
window is the exact partial remainder. -/
theorem normal_core_nocarry (X Dlow N3 V2 k qhat rhat smv ov t0v t1v : Nat)
    (hX : X < base ^ k) (hqhat : qhat = N3 / V2) (hrhat : rhat = N3 % V2)
    (hV2 : 0 < V2)
    (hsmv : (smv : ℤ) = (X : ℤ) - qhat * Dlow + ov * base ^ k)
    (ht01 : (t0v : ℤ) + t1v * base = (rhat : ℤ) - ov) :
    qhat = (X + N3 * base ^ k) / (Dlow + V2 * base ^ k) ∧
    smv + t0v * base ^ k + t1v * (base ^ k * base)
      = (X + N3 * base ^ k) % (Dlow + V2 * base ^ k) := by
  have hD0 : 0 < Dlow + V2 * base ^ k := by
    have hp : 0 < base ^ k := Nat.pos_pow_of_pos k base_pos
    have : 0 < V2 * base ^ k := Nat.mul_pos hV2 hp
    omega
  have hNV : (N3 : ℤ) = (qhat : ℤ) * V2 + rhat := by
    rw [hqhat, hrhat]
    have h := Nat.div_add_mod N3 V2
    have hz : (V2 : ℤ) * ((N3 / V2 : Nat) : ℤ) + ((N3 % V2 : Nat) : ℤ) = (N3 : ℤ) := by
      exact_mod_cast h
    linarith
  have hL : ((smv + t0v * base ^ k + t1v * (base ^ k * base) : Nat) : ℤ)
      = ((X + N3 * base ^ k : Nat) : ℤ)
        - qhat * ((Dlow + V2 * base ^ k : Nat) : ℤ) := by
    push_cast
    linear_combination hsmv + (base : ℤ) ^ k * ht01 - (base : ℤ) ^ k * hNV
  have hge : (qhat : ℤ) * ((Dlow + V2 * base ^ k : Nat) : ℤ)
      ≤ ((X + N3 * base ^ k : Nat) : ℤ) := by
    have h0 : (0 : ℤ) ≤ ((smv + t0v * base ^ k + t1v * (base ^ k * base) : Nat) : ℤ) :=
      Int.ofNat_nonneg _
    linarith [hL]
  have hgeN : qhat * (Dlow + V2 * base ^ k) ≤ X + N3 * base ^ k := by exact_mod_cast hge
  have hle1 : qhat ≤ (X + N3 * base ^ k) / (Dlow + V2 * base ^ k) :=
    (Nat.le_div_iff_mul_le hD0).mpr hgeN
  have hge2 : (X + N3 * base ^ k) / (Dlow + V2 * base ^ k) ≤ qhat := by
    rw [hqhat]
    exact knuth_qt_le_qhat X N3 V2 Dlow k hX hV2
  have heq : qhat = (X + N3 * base ^ k) / (Dlow + V2 * base ^ k) :=
    le_antisymm hle1 hge2
  refine ⟨heq, ?_⟩
  have hmod : (((X + N3 * base ^ k) % (Dlow + V2 * base ^ k) : Nat) : ℤ)
      = ((X + N3 * base ^ k : Nat) : ℤ)
        - qhat * ((Dlow + V2 * base ^ k : Nat) : ℤ) := by
    have h := Nat.div_add_mod (X + N3 * base ^ k) (Dlow + V2 * base ^ k)
    have hz : ((Dlow + V2 * base ^ k : Nat) : ℤ)
        * (((X + N3 * base ^ k) / (Dlow + V2 * base ^ k) : Nat) : ℤ)
        + (((X + N3 * base ^ k) % (Dlow + V2 * base ^ k) : Nat) : ℤ)
        = ((X + N3 * base ^ k : Nat) : ℤ) := by
      exact_mod_cast h
    rw [← heq] at hz
    linarith
  have : ((smv + t0v * base ^ k + t1v * (base ^ k * base) : Nat) : ℤ)
      = (((X + N3 * base ^ k) % (Dlow + V2 * base ^ k) : Nat) : ℤ) := by
    rw [hL, hmod]
  exact_mod_cast this

/-- Arithmetic core of the normal branch with correction: the borrow
combination underflows exactly when the trial digit was one too high, and the
add-back then produces the exact partial remainder, with the top-word update
absorbing exactly one wraparound. -/
theorem normal_core_carry (X Dlow N3 V2 d1 d2 k qhat rhat smv ov t0v t1v adv : Nat)
    (adc : Bool)
    (hX : X < base ^ k) (hDlow : Dlow < base ^ k)
    (hd1 : d1 < base) (hd2 : d2 < base)
    (hqhat : qhat = N3 / V2) (hrhat : rhat = N3 % V2)
    (hV2def : V2 = d2 * base + d1)
    (hV2ge : base - 1 ≤ V2) (hN3 : N3 < V2 * base)
    (hsmv : (smv : ℤ) = (X : ℤ) - qhat * Dlow + ov * base ^ k)
    (ht01 : (t0v : ℤ) + t1v * base = (rhat : ℤ) - ov + base ^ 2)
    (hsmb : smv < base ^ k) (ht0 : t0v < base) (ht1 : t1v < base)
    (hAD : (adv : ℤ) + cval adc * ((base : ℤ) ^ k * base)
      = (smv : ℤ) + t0v * base ^ k + ((Dlow : ℤ) + d1 * base ^ k))
    (hadv : adv < base ^ k * base) :
    qhat = (X + N3 * base ^ k) / (Dlow + V2 * base ^ k) + 1 ∧
    1 ≤ qhat ∧
    base ≤ t1v + d2 + cval adc ∧
    adv + ((t1v + d2 + cval adc) % base) * (base ^ k * base)
      = (X + N3 * base ^ k) % (Dlow + V2 * base ^ k) := by
  have hbase1 : (1 : Nat) < base := by decide
  have hp : 0 < base ^ k := Nat.pos_pow_of_pos k base_pos
  have hV2 : 0 < V2 := by omega
  have hD0 : 0 < Dlow + V2 * base ^ k := by
    have : 0 < V2 * base ^ k := Nat.mul_pos hV2 hp
    omega
  have hNV : (N3 : ℤ) = (qhat : ℤ) * V2 + rhat := by
    rw [hqhat, hrhat]
    have h := Nat.div_add_mod N3 V2
    have hz : (V2 : ℤ) * ((N3 / V2 : Nat) : ℤ) + ((N3 % V2 : Nat) : ℤ) = (N3 : ℤ) := by
      exact_mod_cast h
    linarith
  -- integer identity for the stored (pre-correction) window
  have hL : ((smv + t0v * base ^ k + t1v * (base ^ k * base) : Nat) : ℤ)
      = ((X + N3 * base ^ k : Nat) : ℤ)
        - qhat * ((Dlow + V2 * base ^ k : Nat) : ℤ) + base ^ k * base ^ 2 := by
    push_cast
    linear_combination hsmv + (base : ℤ) ^ k * ht01 - (base : ℤ) ^ k * hNV
  -- the stored window is a (k+2)-word value, so the trial digit overshot
  have hLb : smv + t0v * base ^ k + t1v * (base ^ k * base) < base ^ k * base ^ 2 :=
    window_lt smv t0v t1v k hsmb ht0 ht1
  have hlt : ((X + N3 * base ^ k : Nat) : ℤ)
      < (qhat : ℤ) * ((Dlow + V2 * base ^ k : Nat) : ℤ) := by
    have hcast : ((smv + t0v * base ^ k + t1v * (base ^ k * base) : Nat) : ℤ)
        < (base : ℤ) ^ k * base ^ 2 := by
      calc ((smv + t0v * base ^ k + t1v * (base ^ k * base) : Nat) : ℤ)
          < ((base ^ k * base ^ 2 : Nat) : ℤ) := by exact_mod_cast hLb
        _ = (base : ℤ) ^ k * base ^ 2 := by push_cast; ring
    linarith [hL]
  have hltN : X + N3 * base ^ k < qhat * (Dlow + V2 * base ^ k) := by exact_mod_cast hlt
  have hqt_lt : (X + N3 * base ^ k) / (Dlow + V2 * base ^ k) < qhat := by
    by_contra hle
    push_neg at hle
    have h1 : qhat * (Dlow + V2 * base ^ k)
        ≤ ((X + N3 * base ^ k) / (Dlow + V2 * base ^ k)) * (Dlow + V2 * base ^ k) :=
      Nat.mul_le_mul_right _ hle
    have h2 : ((X + N3 * base ^ k) / (Dlow + V2 * base ^ k)) * (Dlow + V2 * base ^ k)
        ≤ X + N3 * base ^ k := Nat.div_mul_le_self _ _
    omega
  have hup : qhat ≤ (X + N3 * base ^ k) / (Dlow + V2 * base ^ k) + 1 := by
    rw [hqhat]
    exact knuth_qhat_le_qt_succ X N3 V2 Dlow k hDlow hV2ge hN3
  have hqeq : qhat = (X + N3 * base ^ k) / (Dlow + V2 * base ^ k) + 1 := by omega
  have hmod : (((X + N3 * base ^ k) % (Dlow + V2 * base ^ k) : Nat) : ℤ)
      = ((X + N3 * base ^ k : Nat) : ℤ)
        - (((X + N3 * base ^ k) / (Dlow + V2 * base ^ k) : Nat) : ℤ)
          * ((Dlow + V2 * base ^ k : Nat) : ℤ) := by
    have h := Nat.div_add_mod (X + N3 * base ^ k) (Dlow + V2 * base ^ k)
    have hz : ((Dlow + V2 * base ^ k : Nat) : ℤ)
        * (((X + N3 * base ^ k) / (Dlow + V2 * base ^ k) : Nat) : ℤ)
        + (((X + N3 * base ^ k) % (Dlow + V2 * base ^ k) : Nat) : ℤ)
        = ((X + N3 * base ^ k : Nat) : ℤ) := by
      exact_mod_cast h
    linarith
  have hmodD : (X + N3 * base ^ k) % (Dlow + V2 * base ^ k) < Dlow + V2 * base ^ k :=
    Nat.mod_lt _ hD0
  have hDlt : Dlow + V2 * base ^ k < base ^ k * base ^ 2 := by
    refine low_plus_two_lt Dlow V2 k hDlow ?_
    rw [hV2def]
    exact two_word_lt d1 d2 hd1 hd2
  have hADz : (adv : ℤ) + cval adc * ((base : ℤ) ^ k * base)
      = (smv : ℤ) + t0v * base ^ k + ((Dlow : ℤ) + d1 * base ^ k) := hAD
  have hqeqz : (qhat : ℤ)
      = (((X + N3 * base ^ k) / (Dlow + V2 * base ^ k) : Nat) : ℤ) + 1 := by
    exact_mod_cast hqeq
  have hV2z : (V2 : ℤ) = (d2 : ℤ) * base + d1 := by exact_mod_cast hV2def
  have hsum : (adv : ℤ) + ((t1v : ℤ) + d2 + cval adc) * ((base : ℤ) ^ k * base)
      = (((X + N3 * base ^ k) % (Dlow + V2 * base ^ k) : Nat) : ℤ)
        + (base : ℤ) ^ k * base ^ 2 := by
    have hLz := hL
    have hmodz := hmod
    have hqz := hqeqz
    have hVz := hV2z
    have hADz2 := hADz
    push_cast at hLz hmodz hqz hVz hADz2 ⊢
    linear_combination hADz2 + hLz - hmodz
      - ((Dlow : ℤ) + V2 * (base : ℤ) ^ k) * hqz - (base : ℤ) ^ k * hVz
  have hT0 : (0 : ℤ) ≤ (((X + N3 * base ^ k) % (Dlow + V2 * base ^ k) : Nat) : ℤ) :=
    Int.ofNat_nonneg _
  have hTlt : (((X + N3 * base ^ k) % (Dlow + V2 * base ^ k) : Nat) : ℤ)
      < (base : ℤ) ^ k * base ^ 2 := by
    calc (((X + N3 * base ^ k) % (Dlow + V2 * base ^ k) : Nat) : ℤ)
        < ((Dlow + V2 * base ^ k : Nat) : ℤ) := by exact_mod_cast hmodD
      _ < (base : ℤ) ^ k * base ^ 2 := by
          calc ((Dlow + V2 * base ^ k : Nat) : ℤ)
              < ((base ^ k * base ^ 2 : Nat) : ℤ) := by exact_mod_cast hDlt
            _ = (base : ℤ) ^ k * base ^ 2 := by push_cast; ring
  have hadvz : (adv : ℤ) < (base : ℤ) ^ k * base := by
    calc (adv : ℤ) < ((base ^ k * base : Nat) : ℤ) := by exact_mod_cast hadv
      _ = (base : ℤ) ^ k * base := by push_cast; ring
  have hadv0 : (0 : ℤ) ≤ (adv : ℤ) := Int.ofNat_nonneg _
  have hB1 : (0 : ℤ) < (base : ℤ) ^ k * base := by
    have h1 : (0 : ℤ) < (base : ℤ) := by exact_mod_cast base_pos
    positivity
  have hEge : base ≤ t1v + d2 + cval adc := by
    by_contra hltE
    push_neg at hltE
    have hEz : ((t1v : ℤ) + d2 + cval adc) ≤ (base : ℤ) - 1 := by
      have : ((t1v + d2 + cval adc : Nat) : ℤ) < (base : ℤ) := by exact_mod_cast hltE
      push_cast at this
      omega
    have h1 : ((t1v : ℤ) + d2 + cval adc) * ((base : ℤ) ^ k * base)
        ≤ ((base : ℤ) - 1) * ((base : ℤ) ^ k * base) :=
      mul_le_mul_of_nonneg_right hEz (le_of_lt hB1)
    linarith [hsum, hT0, hadvz, h1]
  have hElt : t1v + d2 + cval adc < 2 * base := by
    by_contra hgeE
    push_neg at hgeE
    have hEz : (2 : ℤ) * base ≤ ((t1v : ℤ) + d2 + cval adc) := by
      have : ((2 * base : Nat) : ℤ) ≤ ((t1v + d2 + cval adc : Nat) : ℤ) := by
        exact_mod_cast hgeE
      push_cast at this
      omega
    have h1 : (2 : ℤ) * base * ((base : ℤ) ^ k * base)
        ≤ ((t1v : ℤ) + d2 + cval adc) * ((base : ℤ) ^ k * base) :=
      mul_le_mul_of_nonneg_right hEz (le_of_lt hB1)
    linarith [hsum, hTlt, hadv0, h1]
  have hfeq : (t1v + d2 + cval adc) % base = t1v + d2 + cval adc - base := by
    rw [Nat.mod_eq_sub_mod hEge, Nat.mod_eq_of_lt (by omega)]
  have hfinal : adv + (t1v + d2 + cval adc - base) * (base ^ k * base)
      = (X + N3 * base ^ k) % (Dlow + V2 * base ^ k) := by
    have hsub : ((t1v + d2 + cval adc - base : Nat) : ℤ)
        = (t1v : ℤ) + d2 + cval adc - base := by
      have : base ≤ t1v + d2 + cval adc := hEge
      push_cast [this]
      ring
    have hz : (adv : ℤ) + ((t1v + d2 + cval adc - base : Nat) : ℤ) * ((base : ℤ) ^ k * base)
        = (((X + N3 * base ^ k) % (Dlow + V2 * base ^ k) : Nat) : ℤ) := by
      rw [hsub]
      linear_combination hsum
    have hz' : ((adv + (t1v + d2 + cval adc - base) * (base ^ k * base) : Nat) : ℤ)
        = (((X + N3 * base ^ k) % (Dlow + V2 * base ^ k) : Nat) : ℤ) := by
      push_cast at hz ⊢
      linarith [hz]
    exact_mod_cast hz'
  refine ⟨hqeq, ?_, hEge, ?_⟩
  · rw [hqeq]
    exact Nat.succ_le_succ (Nat.zero_le _)
  · rw [hfeq]
    exact hfinal

/-- Arithmetic core of the overshoot detection: if the borrow combination
underflows, the trial digit was exactly one above the true digit. -/
theorem normal_core_overshoot (X Dlow N3 V2 k qhat rhat smv ov t0v t1v : Nat)
    (hX : X < base ^ k) (hDlow : Dlow < base ^ k)
    (hqhat : qhat = N3 / V2) (hrhat : rhat = N3 % V2)
    (hV2ge : base - 1 ≤ V2) (hN3 : N3 < V2 * base)
    (hsmv : (smv : ℤ) = (X : ℤ) - qhat * Dlow + ov * base ^ k)
    (ht01 : (t0v : ℤ) + t1v * base = (rhat : ℤ) - ov + base ^ 2)
    (hsmb : smv < base ^ k) (ht0 : t0v < base) (ht1 : t1v < base) :
    qhat = (X + N3 * base ^ k) / (Dlow + V2 * base ^ k) + 1 := by
  have hbase1 : (1 : Nat) < base := by decide
  have hp : 0 < base ^ k := Nat.pos_pow_of_pos k base_pos
  have hV2 : 0 < V2 := by omega
  have hNV : (N3 : ℤ) = (qhat : ℤ) * V2 + rhat := by
    rw [hqhat, hrhat]
    have h := Nat.div_add_mod N3 V2
    have hz : (V2 : ℤ) * ((N3 / V2 : Nat) : ℤ) + ((N3 % V2 : Nat) : ℤ) = (N3 : ℤ) := by
      exact_mod_cast h
    linarith
  have hL : ((smv + t0v * base ^ k + t1v * (base ^ k * base) : Nat) : ℤ)
      = ((X + N3 * base ^ k : Nat) : ℤ)
        - qhat * ((Dlow + V2 * base ^ k : Nat) : ℤ) + base ^ k * base ^ 2 := by
    push_cast
    linear_combination hsmv + (base : ℤ) ^ k * ht01 - (base : ℤ) ^ k * hNV
  have hLb : smv + t0v * base ^ k + t1v * (base ^ k * base) < base ^ k * base ^ 2 :=
    window_lt smv t0v t1v k hsmb ht0 ht1
  have hlt : ((X + N3 * base ^ k : Nat) : ℤ)
      < (qhat : ℤ) * ((Dlow + V2 * base ^ k : Nat) : ℤ) := by
    have hcast : ((smv + t0v * base ^ k + t1v * (base ^ k * base) : Nat) : ℤ)
        < (base : ℤ) ^ k * base ^ 2 := by
      calc ((smv + t0v * base ^ k + t1v * (base ^ k * base) : Nat) : ℤ)
          < ((base ^ k * base ^ 2 : Nat) : ℤ) := by exact_mod_cast hLb
        _ = (base : ℤ) ^ k * base ^ 2 := by push_cast; ring
    linarith [hL]
  have hltN : X + N3 * base ^ k < qhat * (Dlow + V2 * base ^ k) := by exact_mod_cast hlt
  have hqt_lt : (X + N3 * base ^ k) / (Dlow + V2 * base ^ k) < qhat := by
    by_contra hle
    push_neg at hle
    have h1 : qhat * (Dlow + V2 * base ^ k)
        ≤ ((X + N3 * base ^ k) / (Dlow + V2 * base ^ k)) * (Dlow + V2 * base ^ k) :=
      Nat.mul_le_mul_right _ hle
    have h2 : ((X + N3 * base ^ k) / (Dlow + V2 * base ^ k)) * (Dlow + V2 * base ^ k)
        ≤ X + N3 * base ^ k := Nat.div_mul_le_self _ _
    omega
  have hup : qhat ≤ (X + N3 * base ^ k) / (Dlow + V2 * base ^ k) + 1 := by
    rw [hqhat]
    exact knuth_qhat_le_qt_succ X N3 V2 Dlow k hDlow hV2ge hN3
  omega

/-- Arithmetic core of the overflow branch: when the top two numerator words
equal the 2-word divisor prefix, the true quotient digit is `base - 1`, the
borrow returned by `submul` cancels the stale top word exactly, and the stored
window is the exact partial remainder. -/
theorem overflow_core (Wnd Dlow V2 k c smv bo : Nat)
    (hDlow : Dlow < base ^ k)
    (hV2base : base ≤ V2) (hV2lt : V2 < base * base)
    (hlow : V2 * base * base ^ k ≤ Wnd)
    (hwin : Wnd < (Dlow + V2 * base ^ k) * base)
    (hsm : (smv : ℤ) = (Wnd : ℤ) - c * ((base : ℤ) ^ k * base ^ 2)
      - ((base : ℤ) - 1) * ((Dlow : ℤ) + V2 * base ^ k)
      + bo * ((base : ℤ) ^ k * base ^ 2))
    (hsmb : smv < base ^ k * base ^ 2) (hc : c < base) (hbo : bo < base) :
    base - 1 = Wnd / (Dlow + V2 * base ^ k) ∧
    c = bo ∧
    smv = Wnd % (Dlow + V2 * base ^ k) := by
  have hbase1 : (1 : Nat) < base := by decide
  have hp : 0 < base ^ k := Nat.pos_pow_of_pos k base_pos
  have hV2 : 0 < V2 := by omega
  have hD0 : 0 < Dlow + V2 * base ^ k := by
    have : 0 < V2 * base ^ k := Nat.mul_pos hV2 hp
    omega
  -- lower bound: (base - 1) * D ≤ Wnd
  have hlo : (base - 1) * (Dlow + V2 * base ^ k) ≤ Wnd := by
    have h1 : (base - 1) * Dlow ≤ V2 * base ^ k :=
      Nat.mul_le_mul (by omega) (le_of_lt hDlow)
    have h2 : (base - 1) * (V2 * base ^ k) + V2 * base ^ k = base * (V2 * base ^ k) := by
      have ha : (base - 1) * (V2 * base ^ k) = base * (V2 * base ^ k) - V2 * base ^ k := by
        rw [Nat.sub_mul, one_mul]
      have hb : V2 * base ^ k ≤ base * (V2 * base ^ k) :=
        Nat.le_mul_of_pos_left _ base_pos
      omega
    have h3 : base * (V2 * base ^ k) = V2 * base * base ^ k := by ring
    have h4 : (base - 1) * (Dlow + V2 * base ^ k)
        = (base - 1) * Dlow + (base - 1) * (V2 * base ^ k) := by ring
    omega
  have hdiv : Wnd / (Dlow + V2 * base ^ k) = base - 1 := by
    refine Nat.div_eq_of_lt_le hlo ?_
    have : base - 1 + 1 = base := by omega
    rw [this]
    calc Wnd < (Dlow + V2 * base ^ k) * base := hwin
      _ = base * (Dlow + V2 * base ^ k) := Nat.mul_comm _ _
  have hmod : ((Wnd % (Dlow + V2 * base ^ k) : Nat) : ℤ)
      = (Wnd : ℤ) - ((base : ℤ) - 1) * ((Dlow : ℤ) + V2 * base ^ k) := by
    have h := Nat.div_add_mod Wnd (Dlow + V2 * base ^ k)
    rw [hdiv] at h
    have hz : ((Dlow + V2 * base ^ k : Nat) : ℤ) * ((base - 1 : Nat) : ℤ)
        + ((Wnd % (Dlow + V2 * base ^ k) : Nat) : ℤ) = (Wnd : ℤ) := by
      exact_mod_cast h
    have hcast : ((base - 1 : Nat) : ℤ) = (base : ℤ) - 1 := by
      have : (1 : Nat) ≤ base := by omega
      push_cast [this]
      ring
    rw [hcast] at hz
    push_cast at hz ⊢
    linarith
  have hmodD : Wnd % (Dlow + V2 * base ^ k) < Dlow + V2 * base ^ k := Nat.mod_lt _ hD0
  have hDlt : Dlow + V2 * base ^ k < base ^ k * base ^ 2 :=
    low_plus_two_lt Dlow V2 k hDlow hV2lt
  -- smv - (Wnd % D) = (bo - c) * base^(k+2): both sides small, so c = bo
  have hkey : (smv : ℤ) - ((Wnd % (Dlow + V2 * base ^ k) : Nat) : ℤ)
      = ((bo : ℤ) - c) * ((base : ℤ) ^ k * base ^ 2) := by
    rw [hsm, hmod]
    ring
  have hK : (0 : ℤ) < (base : ℤ) ^ k * base ^ 2 := by
    have h1 : (0 : ℤ) < (base : ℤ) := by exact_mod_cast base_pos
    positivity
  have hsmz : (0 : ℤ) ≤ (smv : ℤ) := Int.ofNat_nonneg _
  have hsmzb : (smv : ℤ) < (base : ℤ) ^ k * base ^ 2 := by
    calc (smv : ℤ) < ((base ^ k * base ^ 2 : Nat) : ℤ) := by exact_mod_cast hsmb
      _ = (base : ℤ) ^ k * base ^ 2 := by push_cast; ring
  have hTz : (0 : ℤ) ≤ ((Wnd % (Dlow + V2 * base ^ k) : Nat) : ℤ) := Int.ofNat_nonneg _
  have hTzb : ((Wnd % (Dlow + V2 * base ^ k) : Nat) : ℤ) < (base : ℤ) ^ k * base ^ 2 := by
    calc ((Wnd % (Dlow + V2 * base ^ k) : Nat) : ℤ)
        < ((Dlow + V2 * base ^ k : Nat) : ℤ) := by exact_mod_cast hmodD
      _ < (base : ℤ) ^ k * base ^ 2 := by
          calc ((Dlow + V2 * base ^ k : Nat) : ℤ)
              < ((base ^ k * base ^ 2 : Nat) : ℤ) := by exact_mod_cast hDlt
            _ = (base : ℤ) ^ k * base ^ 2 := by push_cast; ring
  have hdiff_lt : ((bo : ℤ) - c) * ((base : ℤ) ^ k * base ^ 2)
      < 1 * ((base : ℤ) ^ k * base ^ 2) := by
    rw [one_mul]
    linarith [hkey]
  have hdiff_gt : (-1 : ℤ) * ((base : ℤ) ^ k * base ^ 2)
      < ((bo : ℤ) - c) * ((base : ℤ) ^ k * base ^ 2) := by
    have : (-1 : ℤ) * ((base : ℤ) ^ k * base ^ 2) = -((base : ℤ) ^ k * base ^ 2) := by ring
    rw [this]
    linarith [hkey]
  have hub : (bo : ℤ) - c < 1 := lt_of_mul_lt_mul_right hdiff_lt (le_of_lt hK)
  have hlb : (-1 : ℤ) < (bo : ℤ) - c := lt_of_mul_lt_mul_right hdiff_gt (le_of_lt hK)
  have hcb : c = bo := by
    have : (c : ℤ) = (bo : ℤ) := by omega
    exact_mod_cast this
  refine ⟨hdiv.symm, hcb, ?_⟩
  have : (smv : ℤ) = ((Wnd % (Dlow + V2 * base ^ k) : Nat) : ℤ) := by
    rw [hcb] at hkey
    have hz : ((bo : ℤ) - bo) * ((base : ℤ) ^ k * base ^ 2) = 0 := by ring
    omega
  exact_mod_cast this

/-- The overflow branch of one Knuth iteration: exact digit, exact remainder,
and the stale top slot is written with zero. -/
theorem knuth_step_overflow_sem (dl P wl S : List Nat) (a b c d1 d2 j : Nat)
    (hP : P.length = j) (hwl : wl.length = dl.length)
    (hbwl : wordsBounded wl) (hbdl : wordsBounded dl)
    (ha : a < base) (hb : b < base) (hc : c < base)
    (hd1 : d1 < base) (hd2 : half ≤ d2) (hd2b : d2 < base)
    (hwin : wval (wl ++ [a, b, c]) < wval (dl ++ [d1, d2]) * base)
    (hob : c * base + b = d2 * base + d1) :
    knuth_step (dl ++ [d1, d2]) (P ++ (wl ++ ([a, b, c] ++ S))) j
        = (base - 1,
           P ++ ((submul (wl ++ [a, b]) (dl ++ [d1, d2]) (base - 1)).1 ++ (0 :: S))) ∧
    base - 1 = wval (wl ++ [a, b, c]) / wval (dl ++ [d1, d2]) ∧
    (submul (wl ++ [a, b]) (dl ++ [d1, d2]) (base - 1)).1.length = dl.length + 2 ∧
    wordsBounded (submul (wl ++ [a, b]) (dl ++ [d1, d2]) (base - 1)).1 ∧
    wval (submul (wl ++ [a, b]) (dl ++ [d1, d2]) (base - 1)).1
      = wval (wl ++ [a, b, c]) % wval (dl ++ [d1, d2]) := by
  have hbase1 : (1 : Nat) < base := by decide
  have hhalfb : base ≤ half * base := Nat.le_mul_of_pos_left _ (by decide)
  -- word-value decompositions
  have hW : wval (wl ++ [a, b, c])
      = wval wl + (c * base ^ 2 + b * base + a) * base ^ dl.length := by
    rw [wval_append, hwl]
    simp [wval]
    ring
  have hXab : wval (wl ++ [a, b])
      = wval wl + (b * base + a) * base ^ dl.length := by
    rw [wval_append, hwl]
    simp [wval]
    ring
  have hD : wval (dl ++ [d1, d2])
      = wval dl + (d2 * base + d1) * base ^ dl.length := by
    rw [wval_append]
    simp [wval]
    ring
  -- submul over the full window
  have hblen : ((dl ++ [d1, d2]) : List Nat).length = (wl ++ [a, b]).length := by
    simp [hwl]
  have hbab : wordsBounded (wl ++ [a, b]) := by
    rw [wordsBounded_append]
    refine ⟨hbwl, ?_⟩
    intro w hw
    simp at hw
    rcases hw with h | h <;> omega
  have hbd : wordsBounded (dl ++ [d1, d2]) := by
    rw [wordsBounded_append]
    refine ⟨hbdl, ?_⟩
    intro w hw
    simp at hw
    rcases hw with h | h <;> omega
  have hspec := submul_spec (wl ++ [a, b]) (dl ++ [d1, d2]) (base - 1)
    hbab hbd hblen (by omega)
  have hxlen : ((wl ++ [a, b]) : List Nat).length = dl.length + 2 := by
    simp [hwl]
  have hsmb : wval (submul (wl ++ [a, b]) (dl ++ [d1, d2]) (base - 1)).1
      < base ^ dl.length * base ^ 2 := by
    have h := wval_lt_of_bounded hspec.2.1
    rw [hspec.1, hxlen] at h
    calc wval (submul (wl ++ [a, b]) (dl ++ [d1, d2]) (base - 1)).1
        < base ^ (dl.length + 2) := h
      _ = base ^ dl.length * base ^ 2 := by rw [pow_add]
  -- the submul identity in the overflow-core shape
  have hsm : ((wval (submul (wl ++ [a, b]) (dl ++ [d1, d2]) (base - 1)).1 : Nat) : ℤ)
      = ((wval (wl ++ [a, b, c]) : Nat) : ℤ)
        - c * ((base : ℤ) ^ dl.length * base ^ 2)
        - ((base : ℤ) - 1) * ((wval dl : ℤ) + (d2 * base + d1) * base ^ dl.length)
        + (submul (wl ++ [a, b]) (dl ++ [d1, d2]) (base - 1)).2
          * ((base : ℤ) ^ dl.length * base ^ 2) := by
    have hiden := hspec.2.2.2
    rw [hxlen] at hiden
    have hWz : ((wval (wl ++ [a, b, c]) : Nat) : ℤ)
        = (wval wl : ℤ) + ((c : ℤ) * base ^ 2 + b * base + a) * (base : ℤ) ^ dl.length := by
      rw [hW]
      push_cast
      ring
    have hXabz : ((wval (wl ++ [a, b]) : Nat) : ℤ)
        = (wval wl : ℤ) + ((b : ℤ) * base + a) * (base : ℤ) ^ dl.length := by
      rw [hXab]
      push_cast
      ring
    have hDz : ((wval (dl ++ [d1, d2]) : Nat) : ℤ)
        = (wval dl : ℤ) + ((d2 : ℤ) * base + d1) * (base : ℤ) ^ dl.length := by
      rw [hD]
      push_cast
      ring
    have hm1 : ((base - 1 : Nat) : ℤ) = (base : ℤ) - 1 := by
      have h1 : (1 : Nat) ≤ base := by omega
      push_cast [h1]
      ring
    rw [hiden, hXabz, hWz, hm1]
    have hpw : ((base : ℤ)) ^ (dl.length + 2) = (base : ℤ) ^ dl.length * base ^ 2 := by
      rw [pow_add]
    rw [hpw, hDz]
    ring
  -- apply the arithmetic core
  have hV2base : base ≤ d2 * base + d1 := by
    have : half * base ≤ d2 * base := Nat.mul_le_mul_right base hd2
    omega
  have hV2sq : d2 * base + d1 < base * base := two_word_lt d1 d2 hd1 hd2b
  have hlow : (d2 * base + d1) * base * base ^ dl.length ≤ wval (wl ++ [a, b, c]) := by
    have hN3eq : c * base ^ 2 + b * base + a = (d2 * base + d1) * base + a := by
      rw [← hob]
      ring
    have hexp : (c * base ^ 2 + b * base + a) * base ^ dl.length
        = (d2 * base + d1) * base * base ^ dl.length + a * base ^ dl.length := by
      rw [hN3eq]
      ring
    omega
  have hwin' : wval (wl ++ [a, b, c])
      < (wval dl + (d2 * base + d1) * base ^ dl.length) * base := by
    rw [← hD]
    exact hwin
  have hDlow : wval dl < base ^ dl.length := wval_lt_of_bounded hbdl
  have hcore := overflow_core (wval (wl ++ [a, b, c])) (wval dl) (d2 * base + d1)
    dl.length c (wval (submul (wl ++ [a, b]) (dl ++ [d1, d2]) (base - 1)).1)
    (submul (wl ++ [a, b]) (dl ++ [d1, d2]) (base - 1)).2
    hDlow hV2base hV2sq hlow hwin' (by rw [hsm, hW]; push_cast; ring) hsmb hc hspec.2.2.1
  have hshape := knuth_step_overflow_shape dl P wl S a b c d1 d2 j hP hwl hob
  have hzero : wsub c (submul (wl ++ [a, b]) (dl ++ [d1, d2]) (base - 1)).2 = 0 := by
    rw [← hcore.2.1]
    unfold wsub
    rw [Nat.mod_eq_of_lt hc]
    have h1 : base + c - c = base := by omega
    rw [h1, Nat.mod_self]
  rw [hzero] at hshape
  refine ⟨hshape, ?_, ?_, hspec.2.1, ?_⟩
  · rw [hD]
    exact hcore.1
  · rw [hspec.1, hxlen]
  · rw [hD]
    exact hcore.2.2

/-- The normal branch of one Knuth iteration: the 3-by-2 trial digit is within
one of the true digit (never below), the step stores the exact digit and exact
partial remainder, and the correction fires exactly when the estimate was one
too high. -/
theorem knuth_step_normal_sem (dl P wl S : List Nat) (a b c d1 d2 j : Nat)
    (hP : P.length = j) (hwl : wl.length = dl.length)
    (hbwl : wordsBounded wl) (hbdl : wordsBounded dl)
    (ha : a < base) (hb : b < base) (hc : c < base)
    (hd1 : d1 < base) (hd2 : half ≤ d2) (hd2b : d2 < base)
    (hwin : wval (wl ++ [a, b, c]) < wval (dl ++ [d1, d2]) * base)
    (hob : c * base + b ≠ d2 * base + d1) :
    wval (wl ++ [a, b, c]) / wval (dl ++ [d1, d2])
      ≤ (udivrem_3by2 c b a (d2 * base + d1)).1 ∧
    (udivrem_3by2 c b a (d2 * base + d1)).1
      ≤ wval (wl ++ [a, b, c]) / wval (dl ++ [d1, d2]) + 1 ∧
    ((sub_with_carry ((udivrem_3by2 c b a (d2 * base + d1)).2 / base)
        (cval (sub_with_carry ((udivrem_3by2 c b a (d2 * base + d1)).2 % base)
          (submul wl dl (udivrem_3by2 c b a (d2 * base + d1)).1).2).2)).2 = true
      → (udivrem_3by2 c b a (d2 * base + d1)).1
          = wval (wl ++ [a, b, c]) / wval (dl ++ [d1, d2]) + 1) ∧
    ∃ w', knuth_step (dl ++ [d1, d2]) (P ++ (wl ++ ([a, b, c] ++ S))) j
        = (wval (wl ++ [a, b, c]) / wval (dl ++ [d1, d2]), P ++ (w' ++ (c :: S))) ∧
      w'.length = dl.length + 2 ∧ wordsBounded w' ∧
      wval w' = wval (wl ++ [a, b, c]) % wval (dl ++ [d1, d2]) := by
  have hbase1 : (1 : Nat) < base := by decide
  have hhalfb : base ≤ half * base := Nat.le_mul_of_pos_left _ (by decide)
  have hpk : 0 < base ^ dl.length := Nat.pos_pow_of_pos _ base_pos
  -- word-value decompositions
  have hW : wval (wl ++ [a, b, c])
      = wval wl + (c * base ^ 2 + b * base + a) * base ^ dl.length := by
    rw [wval_append, hwl]
    simp [wval]
    ring
  have hD : wval (dl ++ [d1, d2])
      = wval dl + (d2 * base + d1) * base ^ dl.length := by
    rw [wval_append]
    simp [wval]
    ring
  have hX : wval wl < base ^ dl.length := by
    have h := wval_lt_of_bounded hbwl
    rwa [hwl] at h
  have hDlow : wval dl < base ^ dl.length := wval_lt_of_bounded hbdl
  have hV2pos : 0 < d2 * base + d1 := by
    have : half * base ≤ d2 * base := Nat.mul_le_mul_right base hd2
    omega
  have hV2ge : base - 1 ≤ d2 * base + d1 := by
    have : half * base ≤ d2 * base := Nat.mul_le_mul_right base hd2
    omega
  have hq3 : udivrem_3by2 c b a (d2 * base + d1)
      = ((c * base ^ 2 + b * base + a) / (d2 * base + d1),
         (c * base ^ 2 + b * base + a) % (d2 * base + d1)) := rfl
  -- the top two window words are strictly below the divisor prefix
  have hW2lt : c * base + b < d2 * base + d1 := by
    have h1 : (c * base ^ 2 + b * base + a) * base ^ dl.length
        ≤ wval (wl ++ [a, b, c]) := by omega
    have h2 : wval (dl ++ [d1, d2]) * base
        ≤ ((d2 * base + d1) + 1) * base ^ dl.length * base := by
      have : wval (dl ++ [d1, d2]) ≤ ((d2 * base + d1) + 1) * base ^ dl.length := by
        have : wval dl + (d2 * base + d1) * base ^ dl.length
            ≤ ((d2 * base + d1) + 1) * base ^ dl.length := by
          have hh : ((d2 * base + d1) + 1) * base ^ dl.length
              = (d2 * base + d1) * base ^ dl.length + base ^ dl.length := by ring
          omega
        omega
      calc wval (dl ++ [d1, d2]) * base
          ≤ (((d2 * base + d1) + 1) * base ^ dl.length) * base :=
            Nat.mul_le_mul_right base this
        _ = ((d2 * base + d1) + 1) * base ^ dl.length * base := by ring
    have h3 : (c * base ^ 2 + b * base + a) * base ^ dl.length
        < ((d2 * base + d1) + 1) * base ^ dl.length * base := by
      calc (c * base ^ 2 + b * base + a) * base ^ dl.length
          ≤ wval (wl ++ [a, b, c]) := h1
        _ < wval (dl ++ [d1, d2]) * base := hwin
        _ ≤ ((d2 * base + d1) + 1) * base ^ dl.length * base := h2
    have h4 : c * base ^ 2 + b * base + a < ((d2 * base + d1) + 1) * base := by
      have hre : ((d2 * base + d1) + 1) * base ^ dl.length * base
          = (((d2 * base + d1) + 1) * base) * base ^ dl.length := by ring
      rw [hre] at h3
      exact Nat.lt_of_mul_lt_mul_right h3
    have h5 : (c * base + b) * base ≤ c * base ^ 2 + b * base + a := by
      have : (c * base + b) * base = c * base ^ 2 + b * base := by ring
      omega
    have h6 : (c * base + b) * base < ((d2 * base + d1) + 1) * base := by omega
    have h7 : c * base + b < (d2 * base + d1) + 1 := Nat.lt_of_mul_lt_mul_right h6
    omega
  have hN3lt : c * base ^ 2 + b * base + a < (d2 * base + d1) * base := by
    have h1 : c * base ^ 2 + b * base + a = (c * base + b) * base + a := by ring
    have h2 : (c * base + b) * base + base ≤ (d2 * base + d1) * base := by
      have h3 : (c * base + b) + 1 ≤ d2 * base + d1 := hW2lt
      have := Nat.mul_le_mul_right base h3
      calc (c * base + b) * base + base = ((c * base + b) + 1) * base := by ring
        _ ≤ (d2 * base + d1) * base := this
    omega
  have hqhatb : (c * base ^ 2 + b * base + a) / (d2 * base + d1) < base := by
    rw [Nat.div_lt_iff_lt_mul hV2pos]
    calc c * base ^ 2 + b * base + a < (d2 * base + d1) * base := hN3lt
      _ = base * (d2 * base + d1) := Nat.mul_comm _ _
  have hrhb : (c * base ^ 2 + b * base + a) % (d2 * base + d1) < base ^ 2 := by
    have h1 : (c * base ^ 2 + b * base + a) % (d2 * base + d1) < d2 * base + d1 :=
      Nat.mod_lt _ hV2pos
    have h2 : d2 * base + d1 < base * base := two_word_lt d1 d2 hd1 hd2b
    have h3 : base * base = base ^ 2 := by ring
    omega
  -- the submul over the low divisor words
  have hsmspec := submul_spec wl dl
    ((c * base ^ 2 + b * base + a) / (d2 * base + d1)) hbwl hbdl hwl.symm hqhatb
  have hsub2 := sub2_spec ((c * base ^ 2 + b * base + a) % (d2 * base + d1))
    (submul wl dl ((c * base ^ 2 + b * base + a) / (d2 * base + d1))).2
    hrhb hsmspec.2.2.1
  -- digit bounds
  have hbound1 : wval (wl ++ [a, b, c]) / wval (dl ++ [d1, d2])
      ≤ (udivrem_3by2 c b a (d2 * base + d1)).1 := by
    rw [hq3, hW, hD]
    exact knuth_qt_le_qhat (wval wl) (c * base ^ 2 + b * base + a)
      (d2 * base + d1) (wval dl) dl.length hX hV2pos
  have hbound2 : (udivrem_3by2 c b a (d2 * base + d1)).1
      ≤ wval (wl ++ [a, b, c]) / wval (dl ++ [d1, d2]) + 1 := by
    rw [hq3, hW, hD]
    exact knuth_qhat_le_qt_succ (wval wl) (c * base ^ 2 + b * base + a)
      (d2 * base + d1) (wval dl) dl.length hDlow hV2ge hN3lt
  have hshape := knuth_step_normal_shape dl P wl S a b c d1 d2 j
    ((c * base ^ 2 + b * base + a) / (d2 * base + d1))
    ((c * base ^ 2 + b * base + a) % (d2 * base + d1)) hP hwl hob hq3
  simp only [] at hshape
  rw [hq3]
  simp only []
  set qh := (c * base ^ 2 + b * base + a) / (d2 * base + d1) with hqh
  set rh := (c * base ^ 2 + b * base + a) % (d2 * base + d1) with hrh
  set SM := submul wl dl qh with hSMdef
  set T0 := sub_with_carry (rh % base) SM.2 with hT0def
  set T1 := sub_with_carry (rh / base) (cval T0.2) with hT1def
  have hsmv := hsmspec.2.2.2
  rw [hwl] at hsmv
  have hsmvb : wval SM.1 < base ^ dl.length := by
    have h := wval_lt_of_bounded hsmspec.2.1
    rwa [hsmspec.1, hwl] at h
  refine ⟨hbound1, hbound2, ?_, ?_⟩
  · -- the correction fires only when the trial digit was one too high
    intro hcarT
    have ht01 := hsub2.1
    rw [hcarT] at ht01
    simp only [cval_true, Nat.cast_one, one_mul] at ht01
    rw [hW, hD]
    exact normal_core_overshoot (wval wl) (wval dl) (c * base ^ 2 + b * base + a)
      (d2 * base + d1) dl.length qh rh (wval SM.1) SM.2 T0.1 T1.1
      hX hDlow hqh hrh hV2ge hN3lt hsmv ht01 hsmvb hsub2.2.1 hsub2.2.2.1
  · by_cases hcar : T1.2 = true
    · -- correction branch
      rw [if_pos hcar] at hshape
      have ht01 := hsub2.1
      rw [hcar] at ht01
      simp only [cval_true, Nat.cast_one, one_mul] at ht01
      have hbx : wordsBounded (SM.1 ++ [T0.1]) := by
        rw [wordsBounded_append]
        refine ⟨hsmspec.2.1, ?_⟩
        intro w hw
        simp at hw
        subst hw
        exact hsub2.2.1
      have hby : wordsBounded (dl ++ [d1]) := by
        rw [wordsBounded_append]
        refine ⟨hbdl, ?_⟩
        intro w hw
        simp at hw
        omega
      have hlenadd : ((dl ++ [d1]) : List Nat).length = (SM.1 ++ [T0.1]).length := by
        simp [hsmspec.1, hwl]
      have hadd := add_spec (SM.1 ++ [T0.1]) (dl ++ [d1]) hbx hby hlenadd
      have elen_x : ((SM.1 ++ [T0.1]) : List Nat).length = dl.length + 1 := by
        simp [hsmspec.1, hwl]
      have elen_ad : (add (SM.1 ++ [T0.1]) (dl ++ [d1])).1.length = dl.length + 1 := by
        rw [hadd.1, elen_x]
      have e1 : wval (SM.1 ++ [T0.1]) = wval SM.1 + T0.1 * base ^ dl.length := by
        rw [wval_append, hsmspec.1, hwl]
        simp [wval]
        ring
      have e2 : wval (dl ++ [d1]) = wval dl + d1 * base ^ dl.length := by
        rw [wval_append]
        simp [wval]
        ring
      have e3 : base ^ (((SM.1 ++ [T0.1]) : List Nat).length) = base ^ dl.length * base := by
        rw [elen_x, pow_succ]
      have hADz : (wval (add (SM.1 ++ [T0.1]) (dl ++ [d1])).1 : ℤ)
          + cval (add (SM.1 ++ [T0.1]) (dl ++ [d1])).2 * ((base : ℤ) ^ dl.length * base)
          = (wval SM.1 : ℤ) + T0.1 * base ^ dl.length
            + ((wval dl : ℤ) + d1 * base ^ dl.length) := by
        have h := hadd.2.2
        rw [e1, e2, e3] at h
        exact_mod_cast h
      have hadvb : wval (add (SM.1 ++ [T0.1]) (dl ++ [d1])).1 < base ^ dl.length * base := by
        have h := wval_lt_of_bounded hadd.2.1
        rw [elen_ad, pow_succ] at h
        exact h
      have hcore := normal_core_carry (wval wl) (wval dl)
        (c * base ^ 2 + b * base + a) (d2 * base + d1) d1 d2 dl.length qh rh
        (wval SM.1) SM.2 T0.1 T1.1
        (wval (add (SM.1 ++ [T0.1]) (dl ++ [d1])).1)
        (add (SM.1 ++ [T0.1]) (dl ++ [d1])).2
        hX hDlow hd1 hd2b hqh hrh rfl hV2ge hN3lt hsmv ht01 hsmvb
        hsub2.2.1 hsub2.2.2.1 hADz hadvb
      have hdig : qh - 1 = wval (wl ++ [a, b, c]) / wval (dl ++ [d1, d2]) := by
        rw [hW, hD]
        omega
      refine ⟨(add (SM.1 ++ [T0.1]) (dl ++ [d1])).1
        ++ [wadd T1.1 (d2 + cval (add (SM.1 ++ [T0.1]) (dl ++ [d1])).2)], ?_, ?_, ?_, ?_⟩
      · rw [hshape, hdig]
        simp [List.append_assoc]
      · simp [elen_ad]
      · rw [wordsBounded_append]
        refine ⟨hadd.2.1, ?_⟩
        intro w hw
        simp at hw
        subst hw
        unfold wadd
        exact Nat.mod_lt _ base_pos
      · have e4 : wval ((add (SM.1 ++ [T0.1]) (dl ++ [d1])).1
            ++ [wadd T1.1 (d2 + cval (add (SM.1 ++ [T0.1]) (dl ++ [d1])).2)])
            = wval (add (SM.1 ++ [T0.1]) (dl ++ [d1])).1
              + wadd T1.1 (d2 + cval (add (SM.1 ++ [T0.1]) (dl ++ [d1])).2)
                * (base ^ dl.length * base) := by
          rw [wval_append, elen_ad]
          simp [wval]
          rw [pow_succ]
          ring
        have e5 : wadd T1.1 (d2 + cval (add (SM.1 ++ [T0.1]) (dl ++ [d1])).2)
            = (T1.1 + d2 + cval (add (SM.1 ++ [T0.1]) (dl ++ [d1])).2) % base := by
          unfold wadd
          rw [Nat.add_assoc]
        rw [e4, e5, hW, hD]
        exact hcore.2.2.2
    · -- no-correction branch
      rw [if_neg hcar] at hshape
      have hf : T1.2 = false := by
        rcases Bool.eq_false_or_eq_true T1.2 with h | h
        · exact absurd h hcar
        · exact h
      have ht01 := hsub2.1
      rw [hf] at ht01
      simp only [cval_false, Nat.cast_zero, zero_mul, add_zero] at ht01
      have hcore := normal_core_nocarry (wval wl) (wval dl)
        (c * base ^ 2 + b * base + a) (d2 * base + d1) dl.length qh rh
        (wval SM.1) SM.2 T0.1 T1.1 hX hqh hrh hV2pos hsmv ht01
      have hdig : qh = wval (wl ++ [a, b, c]) / wval (dl ++ [d1, d2]) := by
        rw [hW, hD]
        exact hcore.1
      refine ⟨SM.1 ++ [T0.1, T1.1], ?_, ?_, ?_, ?_⟩
      · rw [hshape, hdig]
        simp [List.append_assoc]
      · simp [hsmspec.1, hwl]
      · rw [wordsBounded_append]
        refine ⟨hsmspec.2.1, ?_⟩
        intro w hw
        simp at hw
        rcases hw with h | h <;>
          (subst h; first | exact hsub2.2.1 | exact hsub2.2.2.1)
      · have e5 : wval (SM.1 ++ [T0.1, T1.1])
            = wval SM.1 + T0.1 * base ^ dl.length + T1.1 * (base ^ dl.length * base) := by
          rw [wval_append, hsmspec.1, hwl]
          simp [wval]
          ring
        rw [e5, hW, hD]
        exact hcore.2
/-- Both branches of one Knuth iteration produce the exact quotient digit and
the exact partial remainder in the low `dlen` window words, writing some word
below `base` into the stale top slot. -/
theorem knuth_step_sem (dl P wl S : List Nat) (a b c d1 d2 j : Nat)
    (hP : P.length = j) (hwl : wl.length = dl.length)
    (hbwl : wordsBounded wl) (hbdl : wordsBounded dl)
    (ha : a < base) (hb : b < base) (hc : c < base)
    (hd1 : d1 < base) (hd2 : half ≤ d2) (hd2b : d2 < base)
    (hwin : wval (wl ++ [a, b, c]) < wval (dl ++ [d1, d2]) * base) :
    ∃ w' t, knuth_step (dl ++ [d1, d2]) (P ++ (wl ++ ([a, b, c] ++ S))) j
        = (wval (wl ++ [a, b, c]) / wval (dl ++ [d1, d2]), P ++ (w' ++ (t :: S))) ∧
      w'.length = dl.length + 2 ∧ wordsBounded w' ∧ t < base ∧
      wval w' = wval (wl ++ [a, b, c]) % wval (dl ++ [d1, d2]) := by
  by_cases hob : c * base + b = d2 * base + d1
  · have h := knuth_step_overflow_sem dl P wl S a b c d1 d2 j hP hwl hbwl hbdl
      ha hb hc hd1 hd2 hd2b hwin hob
    refine ⟨(submul (wl ++ [a, b]) (dl ++ [d1, d2]) (base - 1)).1, 0,
      ?_, h.2.2.1, h.2.2.2.1, base_pos, h.2.2.2.2⟩
    rw [h.1, h.2.1]
  · have h := knuth_step_normal_sem dl P wl S a b c d1 d2 j hP hwl hbwl hbdl
      ha hb hc hd1 hd2 hd2b hwin hob
    obtain ⟨w', hstep, hlen, hbnd, hval⟩ := h.2.2.2
    exact ⟨w', c, hstep, hlen, hbnd, hc, hval⟩

theorem exists_cons3 (l : List Nat) (h : 3 ≤ l.length) :
    ∃ a b c t, l = a :: b :: c :: t := by
  match l, h with
  | a :: b :: c :: t, _ => exact ⟨a, b, c, t, rfl⟩

/-- Invariant proof for the main loop of `udivrem_knuth`: running `cnt`
iterations on a numerator whose significant part is below
`divisor * base ^ cnt` produces exactly the `cnt` quotient digits and leaves
the exact remainder in the low divisor-width words. -/
theorem knuth_loop_spec (dl : List Nat) (d1 d2 : Nat)
    (hbdl : wordsBounded dl) (hd1 : d1 < base) (hd2 : half ≤ d2) (hd2b : d2 < base) :
    ∀ (cnt : Nat) (u : List Nat), wordsBounded u →
      cnt + dl.length + 2 ≤ u.length →
      wval (u.take (cnt + dl.length + 2)) < wval (dl ++ [d1, d2]) * base ^ cnt →
      (knuth_loop (dl ++ [d1, d2]) cnt u).1.length = cnt ∧
      wordsBounded (knuth_loop (dl ++ [d1, d2]) cnt u).1 ∧
      (knuth_loop (dl ++ [d1, d2]) cnt u).2.length = u.length ∧
      wordsBounded (knuth_loop (dl ++ [d1, d2]) cnt u).2 ∧
      wval (knuth_loop (dl ++ [d1, d2]) cnt u).1 * wval (dl ++ [d1, d2])
        + wval ((knuth_loop (dl ++ [d1, d2]) cnt u).2.take (dl.length + 2))
        = wval (u.take (cnt + dl.length + 2)) ∧
      wval ((knuth_loop (dl ++ [d1, d2]) cnt u).2.take (dl.length + 2))
        < wval (dl ++ [d1, d2]) := by
  intro cnt
  induction cnt with
  | zero =>
      intro u hbu hul hinv
      refine ⟨rfl, wordsBounded_nil, rfl, hbu, ?_, ?_⟩
      · simp [knuth_loop, wval]
      · simpa [knuth_loop] using hinv
  | succ cnt ih =>
      intro u hbu hul hinv
      -- decompose the numerator around the current window
      have hrlen : (u.drop cnt).length = u.length - cnt := List.length_drop _ _
      have hwllen : ((u.drop cnt).take dl.length).length = dl.length := by
        rw [List.length_take]
        omega
      have habc : 3 ≤ ((u.drop cnt).drop dl.length).length := by
        rw [List.length_drop, hrlen]
        omega
      obtain ⟨a, b, c, S, habc_eq⟩ := exists_cons3 _ habc
      have habc_eq' : ([a, b, c] ++ S : List Nat)
          = (u.drop cnt).drop dl.length := by
        rw [habc_eq]
        simp
      have hu_eq : u = u.take cnt
          ++ ((u.drop cnt).take dl.length ++ ([a, b, c] ++ S)) := by
        rw [habc_eq', List.take_append_drop, List.take_append_drop]
      have hP : (u.take cnt).length = cnt := by
        rw [List.length_take]
        omega
      -- boundedness of the pieces
      have hbP : wordsBounded (u.take cnt) := wordsBounded_take _ hbu
      have hbwl : wordsBounded ((u.drop cnt).take dl.length) :=
        wordsBounded_take _ (wordsBounded_drop _ hbu)
      have hbrest : wordsBounded (a :: b :: c :: S) := by
        rw [← habc_eq]
        exact wordsBounded_drop _ (wordsBounded_drop _ hbu)
      rw [wordsBounded_cons] at hbrest
      have hb2 := hbrest.2
      rw [wordsBounded_cons] at hb2
      have hb3 := hb2.2
      rw [wordsBounded_cons] at hb3
      have hbS := hb3.2
      -- the significant part of u is the prefix together with the window
      have htake : u.take (cnt + 1 + dl.length + 2)
          = u.take cnt ++ ((u.drop cnt).take dl.length ++ [a, b, c]) := by
        conv_lhs => rw [hu_eq]
        rw [show cnt + 1 + dl.length + 2 = (u.take cnt).length + (dl.length + 3) from by
          rw [hP]; omega]
        rw [List.take_append]
        congr 1
        rw [show dl.length + 3 = ((u.drop cnt).take dl.length).length + 3 from by
          rw [hwllen]]
        rw [List.take_append]
        rfl
      have hval_take : wval (u.take (cnt + 1 + dl.length + 2))
          = wval (u.take cnt)
            + base ^ cnt * wval ((u.drop cnt).take dl.length ++ [a, b, c]) := by
        rw [htake, wval_append, hP]
      -- window bound from the loop invariant
      have hD0 : 0 < wval (dl ++ [d1, d2]) := by
        have h1 : half * base ≤ d2 * base := Nat.mul_le_mul_right base hd2
        have h2 : (0 : Nat) < half * base := by decide
        have hD : wval (dl ++ [d1, d2])
            = wval dl + (d2 * base + d1) * base ^ dl.length := by
          rw [wval_append]
          simp [wval]
          ring
        have hp : 0 < base ^ dl.length := Nat.pos_pow_of_pos _ base_pos
        have : 0 < (d2 * base + d1) * base ^ dl.length :=
          Nat.mul_pos (by omega) hp
        omega
      have hwin : wval ((u.drop cnt).take dl.length ++ [a, b, c])
          < wval (dl ++ [d1, d2]) * base := by
        have h1 : base ^ cnt * wval ((u.drop cnt).take dl.length ++ [a, b, c])
            < wval (dl ++ [d1, d2]) * base ^ (cnt + 1) := by
          have h2 := hinv
          rw [show cnt + 1 + dl.length + 2 = cnt + 1 + (dl.length + 2) from by omega] at h2
          rw [show cnt + 1 + (dl.length + 2) = cnt + 1 + dl.length + 2 from by omega] at h2
          rw [hval_take] at h2
          omega
        have h3 : wval (dl ++ [d1, d2]) * base ^ (cnt + 1)
            = base ^ cnt * (wval (dl ++ [d1, d2]) * base) := by
          rw [pow_succ]
          ring
        rw [h3] at h1
        exact Nat.lt_of_mul_lt_mul_left h1
      -- one step
      obtain ⟨w', t, hstep, hwlen, hbw', ht, hwval⟩ :=
        knuth_step_sem dl (u.take cnt) ((u.drop cnt).take dl.length) S a b c d1 d2 cnt
          hP hwllen hbwl hbdl hbrest.1 hb2.1 hb3.1 hd1 hd2 hd2b hwin
      have hstep_u : knuth_step (dl ++ [d1, d2]) u cnt
          = (wval ((u.drop cnt).take dl.length ++ [a, b, c]) / wval (dl ++ [d1, d2]),
             u.take cnt ++ (w' ++ (t :: S))) := by
        conv_lhs => rw [hu_eq]
        exact hstep
      -- the updated numerator for the recursive call
      have hulen' : (u.take cnt ++ (w' ++ (t :: S))).length = u.length := by
        have h1 := congrArg List.length hu_eq
        simp only [List.length_append, List.length_cons, List.length_nil,
          hwllen, hP, hwlen] at h1 ⊢
        omega
      have hbu' : wordsBounded (u.take cnt ++ (w' ++ (t :: S))) := by
        rw [wordsBounded_append, wordsBounded_append, wordsBounded_cons]
        exact ⟨hbP, hbw', ht, hbS⟩
      have htake' : (u.take cnt ++ (w' ++ (t :: S))).take (cnt + dl.length + 2)
          = u.take cnt ++ w' := by
        rw [show cnt + dl.length + 2 = (u.take cnt).length + (dl.length + 2) from by
          rw [hP]; omega]
        rw [List.take_append]
        congr 1
        rw [show dl.length + 2 = w'.length from hwlen.symm]
        exact List.take_left _ _
      have hPlt : wval (u.take cnt) < base ^ cnt := by
        have h := wval_lt_of_bounded hbP
        rwa [hP] at h
      have hinv' : wval ((u.take cnt ++ (w' ++ (t :: S))).take (cnt + dl.length + 2))
          < wval (dl ++ [d1, d2]) * base ^ cnt := by
        rw [htake', wval_append, hP, hwval]
        have hmlt : wval ((u.drop cnt).take dl.length ++ [a, b, c])
            % wval (dl ++ [d1, d2]) ≤ wval (dl ++ [d1, d2]) - 1 := by
          have := Nat.mod_lt (wval ((u.drop cnt).take dl.length ++ [a, b, c])) hD0
          omega
        have h1 : base ^ cnt * (wval ((u.drop cnt).take dl.length ++ [a, b, c])
              % wval (dl ++ [d1, d2]))
            ≤ base ^ cnt * (wval (dl ++ [d1, d2]) - 1) :=
          Nat.mul_le_mul_left _ hmlt
        have h2 : base ^ cnt * (wval (dl ++ [d1, d2]) - 1)
            = base ^ cnt * wval (dl ++ [d1, d2]) - base ^ cnt := by
          rw [Nat.mul_sub_one]
        have h3 : base ^ cnt ≤ base ^ cnt * wval (dl ++ [d1, d2]) :=
          Nat.le_mul_of_pos_right _ hD0
        have h4 : base ^ cnt * wval (dl ++ [d1, d2])
            = wval (dl ++ [d1, d2]) * base ^ cnt := Nat.mul_comm _ _
        omega
      have hul' : cnt + dl.length + 2 ≤ (u.take cnt ++ (w' ++ (t :: S))).length := by
        rw [hulen']
        omega
      have hrec := ih (u.take cnt ++ (w' ++ (t :: S))) hbu' hul' hinv'
      -- assemble
      simp only [knuth_loop]
      rw [hstep_u]
      simp only []
      refine ⟨?_, ?_, ?_, ?_, ?_, ?_⟩
      · rw [List.length_append, hrec.1]
        simp
      · rw [wordsBounded_append]
        refine ⟨hrec.2.1, ?_⟩
        intro w hw
        simp at hw
        subst hw
        exact Nat.div_lt_of_lt_mul hwin
      · rw [hrec.2.2.1, hulen']
      · exact hrec.2.2.2.1
      · -- the division identity, assembled over the integers
        have hq : wval ((u.take cnt ++ (w' ++ (t :: S))).take (cnt + dl.length + 2))
            = wval (u.take cnt) + base ^ cnt * wval w' := by
          rw [htake', wval_append, hP]
        have hidq := hrec.2.2.2.2.1
        rw [hq, hwval] at hidq
        have hqv : wval ((knuth_loop (dl ++ [d1, d2]) cnt
              (u.take cnt ++ (w' ++ (t :: S)))).1
              ++ [wval ((u.drop cnt).take dl.length ++ [a, b, c])
                / wval (dl ++ [d1, d2])])
            = wval (knuth_loop (dl ++ [d1, d2]) cnt (u.take cnt ++ (w' ++ (t :: S)))).1
              + (wval ((u.drop cnt).take dl.length ++ [a, b, c])
                  / wval (dl ++ [d1, d2])) * base ^ cnt := by
          rw [wval_append, hrec.1]
          simp [wval]
          ring
        rw [hqv, hval_take]
        have hdm := Nat.div_add_mod (wval ((u.drop cnt).take dl.length ++ [a, b, c]))
          (wval (dl ++ [d1, d2]))
        zify at hidq hdm ⊢
        linear_combination hidq + ((base : ℤ)) ^ cnt * hdm
      · exact hrec.2.2.2.2.2

/-! ### Digit lengths, word decomposition, and truncation

Helper machinery for the dispatcher `udivrem` (div.cpp lines 134-170): counting
significant bits and words of an operand, splitting a number into its
little-endian 64-bit words, and truncating word arrays. -/

/-- Fuel-driven digit count: `digLenAux B fuel n` is the number of base-`B`
digits of `n`, computed correctly whenever `n ≤ fuel`. -/
def digLenAux (B : Nat) : Nat → Nat → Nat
  | 0, _ => 0
  | fuel + 1, n => if n = 0 then 0 else digLenAux B fuel (n / B) + 1

/-- Number of base-`B` digits of `n` (`0` for `n = 0`). -/
def digLen (B n : Nat) : Nat := digLenAux B n n

/-- Bit length of `n`: position of the highest set bit, plus one. -/
def bitLen (n : Nat) : Nat := digLen 2 n

/-- Number of significant 64-bit words of `n`. -/
def sigWords (n : Nat) : Nat := digLen base n

theorem digLenAux_zero (B fuel : Nat) : digLenAux B fuel 0 = 0 := by
  cases fuel <;> simp [digLenAux]

theorem digLenAux_lt (B : Nat) (hB : 2 ≤ B) :
    ∀ fuel n, n ≤ fuel → n < B ^ digLenAux B fuel n := by
  intro fuel
  induction fuel with
  | zero =>
      intro n h
      have hn : n = 0 := by omega
      subst hn
      rw [digLenAux_zero]
      simp
  | succ fuel ih =>
      intro n h
      by_cases hn : n = 0
      · subst hn
        rw [digLenAux_zero]
        simp
      · have hstep : digLenAux B (fuel + 1) n = digLenAux B fuel (n / B) + 1 := by
          simp [digLenAux, hn]
        rw [hstep]
        have hle : n / B ≤ fuel := by
          have := Nat.div_lt_self (Nat.pos_of_ne_zero hn) hB
          omega
        have hih := ih (n / B) hle
        have hdm := Nat.div_add_mod n B
        have hr : n % B < B := Nat.mod_lt _ (by omega)
        have hmul : B * (n / B) + B ≤ B * B ^ digLenAux B fuel (n / B) := by
          have h1 : B * (n / B) + B = B * (n / B + 1) := by ring
          rw [h1]
          exact Nat.mul_le_mul_left _ (by omega)
        have hpow : B * B ^ digLenAux B fuel (n / B)
            = B ^ (digLenAux B fuel (n / B) + 1) := by
          rw [pow_succ]
          ring
        omega

theorem digLenAux_pos (B : Nat) :
    ∀ fuel n, n ≤ fuel → n ≠ 0 → 0 < digLenAux B fuel n := by
  intro fuel n h hn
  cases fuel with
  | zero => omega
  | succ fuel => simp [digLenAux, hn]

theorem digLenAux_le (B : Nat) (hB : 2 ≤ B) :
    ∀ fuel n, n ≤ fuel → n ≠ 0 → B ^ (digLenAux B fuel n - 1) ≤ n := by
  intro fuel
  induction fuel with
  | zero => intro n h hn; omega
  | succ fuel ih =>
      intro n h hn
      have hstep : digLenAux B (fuel + 1) n = digLenAux B fuel (n / B) + 1 := by
        simp [digLenAux, hn]
      rw [hstep]
      simp only [Nat.add_sub_cancel]
      by_cases hq : n / B = 0
      · rw [hq, digLenAux_zero]
        simpa using Nat.pos_of_ne_zero hn
      · have hle : n / B ≤ fuel := by
          have := Nat.div_lt_self (Nat.pos_of_ne_zero hn) hB
          omega
        have hih := ih (n / B) hle hq
        have hpos := digLenAux_pos B fuel (n / B) hle hq
        have hsp : digLenAux B fuel (n / B) - 1 + 1 = digLenAux B fuel (n / B) := by
          omega
        have hpow : B ^ digLenAux B fuel (n / B)
            = B ^ (digLenAux B fuel (n / B) - 1) * B := by
          rw [← pow_succ, hsp]
        have hmul : B ^ (digLenAux B fuel (n / B) - 1) * B ≤ n / B * B :=
          Nat.mul_le_mul_right _ hih
        have hdb : n / B * B ≤ n := Nat.div_mul_le_self n B
        omega

theorem digLen_lt (B n : Nat) (hB : 2 ≤ B) : n < B ^ digLen B n :=
  digLenAux_lt B hB n n le_rfl

theorem digLen_le (B n : Nat) (hB : 2 ≤ B) (hn : n ≠ 0) :
    B ^ (digLen B n - 1) ≤ n :=
  digLenAux_le B hB n n le_rfl hn

theorem digLen_pos (B n : Nat) (hn : n ≠ 0) : 0 < digLen B n :=
  digLenAux_pos B n n le_rfl hn

theorem digLen_zero (B : Nat) : digLen B 0 = 0 := digLenAux_zero B 0

theorem digLen_le_of_lt_pow (B n k : Nat) (hB : 2 ≤ B) (h : n < B ^ k) :
    digLen B n ≤ k := by
  by_cases hn : n = 0
  · subst hn
    rw [digLen_zero]
    omega
  · by_contra hk
    have h1 : k ≤ digLen B n - 1 := by omega
    have h2 : B ^ k ≤ B ^ (digLen B n - 1) := Nat.pow_le_pow_right (by omega) h1
    have h3 := digLen_le B n hB hn
    omega

/-- Little-endian decomposition of `n` into `k` 64-bit words. -/
def toWords : Nat → Nat → List Nat
  | 0, _ => []
  | k + 1, n => n % base :: toWords k (n / base)

theorem toWords_length : ∀ (k n : Nat), (toWords k n).length = k := by
  intro k
  induction k with
  | zero => intro n; rfl
  | succ k ih => intro n; simp [toWords, ih]

theorem toWords_bounded : ∀ (k n : Nat), wordsBounded (toWords k n) := by
  intro k
  induction k with
  | zero => intro n; exact wordsBounded_nil
  | succ k ih =>
      intro n
      rw [toWords, wordsBounded_cons]
      exact ⟨Nat.mod_lt _ base_pos, ih _⟩

theorem wval_toWords : ∀ (k n : Nat), wval (toWords k n) = n % base ^ k := by
  intro k
  induction k with
  | zero => intro n; simp [toWords, wval, Nat.mod_one]
  | succ k ih =>
      intro n
      rw [toWords]
      simp only [wval]
      rw [ih]
      have h1 : base ^ (k + 1) = base * base ^ k := by
        rw [pow_succ]
        ring
      rw [h1, Nat.mod_mul]

theorem wval_toWords_of_lt (k n : Nat) (h : n < base ^ k) :
    wval (toWords k n) = n := by
  rw [wval_toWords, Nat.mod_eq_of_lt h]

theorem toWords_getD : ∀ (k n i : Nat), i < k →
    (toWords k n).getD i 0 = n / base ^ i % base := by
  intro k
  induction k with
  | zero => intro n i h; omega
  | succ k ih =>
      intro n i h
      cases i with
      | zero => simp [toWords]
      | succ i =>
          rw [toWords]
          simp only [List.getD_cons_succ]
          rw [ih (n / base) i (by omega), Nat.div_div_eq_div_mul]
          have h1 : base * base ^ i = base ^ (i + 1) := by
            rw [pow_succ]
            ring
          rw [h1]

/-- Truncating a word array does not change its value when the value already
fits in the kept words. -/
theorem wval_take_of_lt (l : List Nat) (k : Nat) (h : wval l < base ^ k) :
    wval (l.take k) = wval l := by
  have hsplit := wval_take_add_drop l k
  by_cases hd : wval (l.drop k) = 0
  · rw [hd] at hsplit
    omega
  · exfalso
    by_cases hlen : l.length ≤ k
    · rw [List.drop_eq_nil_of_le hlen] at hd
      simp [wval] at hd
    · have htl : (l.take k).length = k := by
        rw [List.length_take]
        omega
      rw [htl] at hsplit
      have h3 : base ^ k ≤ base ^ k * wval (l.drop k) :=
        Nat.le_mul_of_pos_right _ (Nat.pos_of_ne_zero hd)
      omega

theorem getD_take (l : List Nat) (n i : Nat) (h : i < n) :
    (l.take n).getD i 0 = l.getD i 0 := by
  unfold List.getD
  rw [List.get?_eq_getElem?, List.get?_eq_getElem?, List.getElem?_take, if_pos h]

/-- Any word array of length at least 2 splits off its two most significant
words. -/
theorem list_split_top2 (l : List Nat) (h : 2 ≤ l.length) :
    l = l.take (l.length - 2)
      ++ [l.getD (l.length - 2) 0, l.getD (l.length - 1) 0] := by
  have htl : (l.take (l.length - 2)).length = l.length - 2 := by
    rw [List.length_take]
    omega
  have hdl : (l.drop (l.length - 2)).length = 2 := by
    rw [List.length_drop]
    omega
  obtain ⟨x, y, hxy⟩ := List.length_eq_two.mp hdl
  have hsplit : l = l.take (l.length - 2) ++ [x, y] := by
    conv_lhs => rw [← List.take_append_drop (l.length - 2) l]
    rw [hxy]
  have hgx : l.getD (l.length - 2) 0 = x := by
    nth_rewrite 1 [hsplit]
    rw [List.getD_append_right _ _ _ _ (le_of_eq htl), htl]
    simp
  have hgy : l.getD (l.length - 1) 0 = y := by
    nth_rewrite 1 [hsplit]
    rw [List.getD_append_right _ _ _ _ (by rw [htl]; omega), htl]
    have h2 : l.length - 1 - (l.length - 2) = 1 := by omega
    rw [h2]
    simp
  rw [hgx, hgy]
  exact hsplit

/-! ### De-normalization of the remainder -/

/-- One word of the remainder reconstruction in `udivrem` (div.cpp line 166):
`rw[i] = na.shift ? (un[i] >> na.shift) | (un[i + 1] << (64 - na.shift)) : un[i]`.
The left shift of a `uint64_t` wraps, hence the `% base`. -/
def denormWord (s lo hi : Nat) : Nat :=
  if s = 0 then lo else (lo >>> s) ||| ((hi <<< (64 - s)) % base)

/-- The remainder reconstruction of `udivrem` (div.cpp lines 165-167): each
word combines with its more significant neighbour, and the top word is only
right-shifted (line 167; when `shift = 0` the two agree since `w >>> 0 = w`). -/
def denormList (s : Nat) : List Nat → List Nat
  | [] => []
  | [w] => [w >>> s]
  | w :: w2 :: ws => denormWord s w w2 :: denormList s (w2 :: ws)

theorem denormWord_eq (s lo hi : Nat) (hs : s ≤ 63) (hlo : lo < base) :
    denormWord s lo hi = lo / 2 ^ s + hi % 2 ^ s * 2 ^ (64 - s) := by
  by_cases h0 : s = 0
  · subst h0
    simp [denormWord, Nat.mod_one]
  · unfold denormWord
    rw [if_neg h0, Nat.shiftRight_eq_div_pow, Nat.shiftLeft_eq]
    have hsplit : base = 2 ^ s * 2 ^ (64 - s) := by
      have h64 : s + (64 - s) = 64 := by omega
      rw [← pow_add, h64]
      rfl
    have h1 : hi * 2 ^ (64 - s) % base = hi % 2 ^ s * 2 ^ (64 - s) := by
      rw [hsplit, Nat.mul_mod_mul_right]
    rw [h1]
    have h2 : lo / 2 ^ s < 2 ^ (64 - s) := by
      apply Nat.div_lt_of_lt_mul
      calc lo < base := hlo
        _ = 2 ^ s * 2 ^ (64 - s) := hsplit
    calc lo / 2 ^ s ||| hi % 2 ^ s * 2 ^ (64 - s)
        = 2 ^ (64 - s) * (hi % 2 ^ s) ||| lo / 2 ^ s := by
          rw [Nat.or_comm, mul_comm]
      _ = 2 ^ (64 - s) * (hi % 2 ^ s) + lo / 2 ^ s :=
          (Nat.mul_add_lt_is_or h2 _).symm
      _ = lo / 2 ^ s + hi % 2 ^ s * 2 ^ (64 - s) := by ring

/-- The word-by-word de-normalization computes exactly the right shift of the
multi-word value. -/
theorem denormList_val (s : Nat) (hs : s ≤ 63) :
    ∀ xs : List Nat, wordsBounded xs →
      wval (denormList s xs) = wval xs / 2 ^ s := by
  intro xs
  induction xs with
  | nil => intro hb; simp [denormList, wval, Nat.zero_div]
  | cons w ws ih =>
      intro hb
      rw [wordsBounded_cons] at hb
      cases ws with
      | nil =>
          simp [denormList, wval, Nat.shiftRight_eq_div_pow]
      | cons w2 t =>
          have hih := ih hb.2
          have hsplit : base = 2 ^ s * 2 ^ (64 - s) := by
            have h64 : s + (64 - s) = 64 := by omega
            rw [← pow_add, h64]
            rfl
          have hw2 : w2 < base := by
            rw [wordsBounded_cons] at hb
            exact hb.2.1
          have hW : wval (w2 :: t) = w2 + 2 ^ s * (2 ^ (64 - s) * wval t) := by
            simp only [wval]
            rw [hsplit]
            ring
          have hW2 : wval (w2 :: t) % 2 ^ s = w2 % 2 ^ s := by
            rw [hW, Nat.add_mul_mod_self_left]
          have hkey : (w + base * wval (w2 :: t)) / 2 ^ s
              = w / 2 ^ s + 2 ^ (64 - s) * wval (w2 :: t) := by
            have h1 : w + base * wval (w2 :: t)
                = w + 2 ^ s * (2 ^ (64 - s) * wval (w2 :: t)) := by
              rw [hsplit]
              ring
            rw [h1, Nat.add_mul_div_left _ _ (Nat.pos_pow_of_pos s (by omega))]
          show denormWord s w w2 + base * wval (denormList s (w2 :: t))
              = wval (w :: w2 :: t) / 2 ^ s
          have hcons : wval (w :: w2 :: t) = w + base * wval (w2 :: t) := rfl
          rw [hih, denormWord_eq s w w2 hs hb.1, ← hW2, hcons, hkey]
          have hdm := Nat.div_add_mod (wval (w2 :: t)) (2 ^ s)
          generalize wval (w2 :: t) = W at *
          generalize hq : W / 2 ^ s = Q at *
          generalize hr : W % 2 ^ s = R at *
          rw [hsplit, ← hdm]
          ring

/-! ### Normalization and the dispatcher

`internal::normalize` is not part of `src/lib/intx/div.cpp`; it is modelled
from the spec (§3 "Normalized operand bundle", §6): both operands are
left-shifted by the same `shift ∈ [0, 63]`, chosen so that the divisor's most
significant word has bit 63 set, and the trimmed significant-word counts are
reported.  The numerator copy keeps one extra word for the bits shifted out of
its top word.  `num_numerator_words` is taken one larger than the trimmed
count of `u` when the shifted numerator's extra top word is non-zero or its
top word is not below the divisor's top word; this makes the dispatcher's
word-count test `num_numerator_words ≤ num_divisor_words` (div.cpp line 139)
coincide with `u < v`, as §4.1 step 2 requires, and guarantees the top
numerator word passed on to the division paths is below the divisor's top
word. -/

structure NormResult where
  numerator : List Nat
  divisor : List Nat
  num_numerator_words : Nat
  num_divisor_words : Nat
  shift : Nat

/-- Modelled from the spec: `internal::normalize` (§3, §6) for operands of
`nw` words. -/
def normalize (nw u v : Nat) : NormResult :=
  let m := sigWords v
  let shift := 64 - bitLen (v / base ^ (m - 1))
  let vn := toWords m (v <<< shift)
  let un := toWords (nw + 1) (u <<< shift)
  let n0 := sigWords u
  let n := if un.getD n0 0 ≠ 0 ∨ vn.getD (m - 1) 0 ≤ un.getD (n0 - 1) 0
    then n0 + 1 else n0
  ⟨un, vn, n, m, shift⟩

/-- Embeds the dispatcher `udivrem` (div.cpp lines 134-170) for a width of
`nw` words, with the fixed-width containers represented by their values: the
returned pair holds the values of the quotient and remainder word arrays the
source builds. -/
def udivrem (nw u v : Nat) : Nat × Nat :=
  let na := normalize nw u v
  if na.num_numerator_words ≤ na.num_divisor_words then (0, u)
  else if na.num_divisor_words = 1 then
    let res := udivrem_by1 (na.numerator.take na.num_numerator_words)
      (na.divisor.getD 0 0)
    (wval ((res.1 ++ na.numerator.drop na.num_numerator_words).take nw),
     res.2 >>> na.shift)
  else if na.num_divisor_words = 2 then
    let res := udivrem_by2 (na.numerator.take na.num_numerator_words)
      (na.divisor.getD 1 0 * base + na.divisor.getD 0 0)
    (wval ((res.1 ++ na.numerator.drop na.num_numerator_words).take nw),
     res.2 >>> na.shift)
  else
    let res := udivrem_knuth (na.numerator.take na.num_numerator_words)
      na.divisor
    (wval res.1,
     wval (denormList na.shift (res.2.take na.num_divisor_words)))

theorem two_le_base : 2 ≤ base := by decide

theorem normalize_num_divisor_words (nw u v : Nat) :
    (normalize nw u v).num_divisor_words = sigWords v := rfl

theorem normalize_shift (nw u v : Nat) :
    (normalize nw u v).shift = 64 - bitLen (v / base ^ (sigWords v - 1)) := rfl

theorem normalize_divisor (nw u v : Nat) :
    (normalize nw u v).divisor
      = toWords (sigWords v) (v * 2 ^ (normalize nw u v).shift) := by
  show toWords (sigWords v) (v <<< (normalize nw u v).shift) = _
  rw [Nat.shiftLeft_eq]

theorem normalize_numerator (nw u v : Nat) :
    (normalize nw u v).numerator
      = toWords (nw + 1) (u * 2 ^ (normalize nw u v).shift) := by
  show toWords (nw + 1) (u <<< (normalize nw u v).shift) = _
  rw [Nat.shiftLeft_eq]

theorem normalize_num_numerator_words (nw u v : Nat) :
    (normalize nw u v).num_numerator_words =
      if (normalize nw u v).numerator.getD (sigWords u) 0 ≠ 0 ∨
         (normalize nw u v).divisor.getD (sigWords v - 1) 0
           ≤ (normalize nw u v).numerator.getD (sigWords u - 1) 0
      then sigWords u + 1 else sigWords u := rfl

/-- The normalization shift brings the divisor's top word into
`[2^63, 2^64)` while keeping the divisor inside its significant words. -/
theorem shift_bounds (v : Nat) (hv : v ≠ 0) :
    64 - bitLen (v / base ^ (sigWords v - 1)) ≤ 63 ∧
    half * base ^ (sigWords v - 1)
      ≤ v * 2 ^ (64 - bitLen (v / base ^ (sigWords v - 1))) ∧
    v * 2 ^ (64 - bitLen (v / base ^ (sigWords v - 1))) < base ^ sigWords v := by
  have hm1 : 1 ≤ sigWords v := digLen_pos base v hv
  obtain ⟨k, hk⟩ : ∃ k, sigWords v = k + 1 := ⟨sigWords v - 1, by omega⟩
  rw [hk]
  simp only [Nat.add_sub_cancel]
  have hsd : sigWords v = digLen base v := rfl
  have hvlow : base ^ k ≤ v := by
    have h := digLen_le base v two_le_base hv
    rw [← hsd, hk, Nat.add_sub_cancel] at h
    exact h
  have hvhigh : v < base ^ (k + 1) := by
    have h := digLen_lt base v two_le_base
    rw [← hsd, hk] at h
    exact h
  have hpk : 0 < base ^ k := Nat.pos_pow_of_pos _ base_pos
  have hpow : base ^ (k + 1) = base ^ k * base := pow_succ base k
  have hvt1 : 1 ≤ v / base ^ k := (Nat.one_le_div_iff hpk).mpr hvlow
  have hvtb : v / base ^ k < base := by
    rw [Nat.div_lt_iff_lt_mul hpk]
    calc v < base ^ (k + 1) := hvhigh
      _ = base * base ^ k := by rw [hpow]; ring
  have ht1 : 1 ≤ bitLen (v / base ^ k) := digLen_pos 2 _ (by omega)
  have ht64 : bitLen (v / base ^ k) ≤ 64 :=
    digLen_le_of_lt_pow 2 _ 64 (by omega) hvtb
  refine ⟨by omega, ?_, ?_⟩
  · -- lower bound: the top bit of the shifted divisor's top word is set
    have hvtlow : 2 ^ (bitLen (v / base ^ k) - 1) ≤ v / base ^ k :=
      digLen_le 2 _ (by omega) (by omega)
    have h2 : v / base ^ k * base ^ k ≤ v := Nat.div_mul_le_self v (base ^ k)
    have h1 : 2 ^ (bitLen (v / base ^ k) - 1) * base ^ k
        ≤ v / base ^ k * base ^ k := Nat.mul_le_mul_right _ hvtlow
    have hps : (2 : Nat) ^ (bitLen (v / base ^ k) - 1)
        * 2 ^ (64 - bitLen (v / base ^ k)) = half := by
      rw [← pow_add]
      have he : bitLen (v / base ^ k) - 1 + (64 - bitLen (v / base ^ k)) = 63 := by
        omega
      rw [he]
      rfl
    calc half * base ^ k
        = 2 ^ (bitLen (v / base ^ k) - 1) * base ^ k
          * 2 ^ (64 - bitLen (v / base ^ k)) := by rw [← hps]; ring
      _ ≤ v * 2 ^ (64 - bitLen (v / base ^ k)) :=
          Nat.mul_le_mul_right _ (le_trans h1 h2)
  · -- upper bound: the shifted divisor still fits in its words
    have hvthigh : v / base ^ k < 2 ^ bitLen (v / base ^ k) :=
      digLen_lt 2 _ (by omega)
    have hdm := Nat.div_add_mod v (base ^ k)
    have hmod : v % base ^ k < base ^ k := Nat.mod_lt _ hpk
    have hexp : (v / base ^ k + 1) * base ^ k
        = base ^ k * (v / base ^ k) + base ^ k := by ring
    have hvup : v < (v / base ^ k + 1) * base ^ k := by omega
    have hps : (2 : Nat) ^ bitLen (v / base ^ k)
        * 2 ^ (64 - bitLen (v / base ^ k)) = base := by
      rw [← pow_add]
      have he : bitLen (v / base ^ k) + (64 - bitLen (v / base ^ k)) = 64 := by
        omega
      rw [he]
      rfl
    have hspos : 0 < 2 ^ (64 - bitLen (v / base ^ k)) :=
      Nat.pos_pow_of_pos _ (by omega)
    calc v * 2 ^ (64 - bitLen (v / base ^ k))
        < (v / base ^ k + 1) * base ^ k * 2 ^ (64 - bitLen (v / base ^ k)) :=
          (Nat.mul_lt_mul_right hspos).mpr hvup
      _ ≤ 2 ^ bitLen (v / base ^ k) * base ^ k
          * 2 ^ (64 - bitLen (v / base ^ k)) := by
          exact Nat.mul_le_mul_right _ (Nat.mul_le_mul_right _ (by omega))
      _ = base ^ k * (2 ^ bitLen (v / base ^ k)
            * 2 ^ (64 - bitLen (v / base ^ k))) := by ring
      _ = base ^ k * base := by rw [hps]
      _ = base ^ (k + 1) := by rw [hpow]

/-- Case analysis of the normalized word counts: the fast-path test of the
dispatcher implies `u < v`, and on the slow paths the normalized numerator's
significant prefix carries its full value and lies strictly below
`divisor * base ^ (n - m)` — the precondition of every division path. -/
theorem normalize_cases (nw u v : Nat) (hv : v ≠ 0) (hub : u < base ^ nw)
    (hvb : v < base ^ nw) :
    ((normalize nw u v).num_numerator_words ≤ (normalize nw u v).num_divisor_words
      → u < v) ∧
    ((normalize nw u v).num_divisor_words < (normalize nw u v).num_numerator_words
      → wval ((normalize nw u v).numerator.take
            (normalize nw u v).num_numerator_words)
          = u * 2 ^ (normalize nw u v).shift ∧
        u * 2 ^ (normalize nw u v).shift
          < v * 2 ^ (normalize nw u v).shift
            * base ^ ((normalize nw u v).num_numerator_words
                - (normalize nw u v).num_divisor_words) ∧
        (normalize nw u v).num_numerator_words ≤ nw + 1) := by
  have hm1 : 1 ≤ sigWords v := digLen_pos base v hv
  have hmnw : sigWords v ≤ nw := digLen_le_of_lt_pow base v nw two_le_base hvb
  have hn0nw : sigWords u ≤ nw := digLen_le_of_lt_pow base u nw two_le_base hub
  have hu0 : u < base ^ sigWords u := digLen_lt base u two_le_base
  have hvlow : base ^ (sigWords v - 1) ≤ v := digLen_le base v two_le_base hv
  obtain ⟨hs63, hDlo, hDhi⟩ := shift_bounds v hv
  rw [normalize_num_numerator_words, normalize_numerator, normalize_divisor,
    normalize_num_divisor_words, normalize_shift]
  generalize 64 - bitLen (v / base ^ (sigWords v - 1)) = s at *
  generalize hgm : sigWords v = m at *
  generalize hgn0 : sigWords u = n0 at *
  have hspos : 0 < (2 : Nat) ^ s := Nat.pos_pow_of_pos _ (by omega)
  have h2s : (2 : Nat) ^ s ≤ half := by
    have h := Nat.pow_le_pow_right (show 0 < 2 by omega) hs63
    exact h
  have hU1 : u * 2 ^ s < base ^ (n0 + 1) := by
    calc u * 2 ^ s < base ^ n0 * 2 ^ s := (Nat.mul_lt_mul_right hspos).mpr hu0
      _ ≤ base ^ n0 * base := Nat.mul_le_mul_left _ (by
          have : half ≤ base := by decide
          omega)
      _ = base ^ (n0 + 1) := (pow_succ base n0).symm
  have hUnw : u * 2 ^ s < base ^ (nw + 1) :=
    lt_of_lt_of_le hU1 (Nat.pow_le_pow_right base_pos (by omega))
  have hwvalun : wval (toWords (nw + 1) (u * 2 ^ s)) = u * 2 ^ s :=
    wval_toWords_of_lt _ _ hUnw
  have hpm1 : 0 < base ^ (m - 1) := Nat.pos_pow_of_pos _ base_pos
  have hpowm : base ^ m = base ^ (m - 1) * base := by
    have he : m - 1 + 1 = m := by omega
    rw [← pow_succ, he]
  have hDtopb : v * 2 ^ s / base ^ (m - 1) < base := by
    rw [Nat.div_lt_iff_lt_mul hpm1]
    calc v * 2 ^ s < base ^ m := hDhi
      _ = base * base ^ (m - 1) := by rw [hpowm]; ring
  have hgetvtop : (toWords m (v * 2 ^ s)).getD (m - 1) 0
      = v * 2 ^ s / base ^ (m - 1) := by
    rw [toWords_getD m _ (m - 1) (by omega), Nat.mod_eq_of_lt hDtopb]
  have hgetn0 : (toWords (nw + 1) (u * 2 ^ s)).getD n0 0
      = u * 2 ^ s / base ^ n0 % base :=
    toWords_getD (nw + 1) _ n0 (by omega)
  have hDtoplow : half ≤ v * 2 ^ s / base ^ (m - 1) := by
    rw [Nat.le_div_iff_mul_le hpm1]
    exact hDlo
  -- if the extra top word is zero, the shifted numerator fits in `n0` words
  have hsmall : u * 2 ^ s / base ^ n0 % base = 0 → u * 2 ^ s < base ^ n0 := by
    intro hz
    have h1 : u * 2 ^ s / base ^ n0 < base := by
      rw [Nat.div_lt_iff_lt_mul (Nat.pos_pow_of_pos _ base_pos)]
      calc u * 2 ^ s < base ^ (n0 + 1) := hU1
        _ = base * base ^ n0 := by rw [pow_succ]; ring
    have h2 : u * 2 ^ s / base ^ n0 = 0 := by
      rw [← Nat.mod_eq_of_lt h1]
      exact hz
    exact (Nat.div_eq_zero_iff (Nat.pos_pow_of_pos _ base_pos)).mp h2
  constructor
  · -- fast path: `num_numerator_words ≤ num_divisor_words` forces `u < v`
    intro hfast
    by_cases hC : (toWords (nw + 1) (u * 2 ^ s)).getD n0 0 ≠ 0 ∨
        (toWords m (v * 2 ^ s)).getD (m - 1) 0
          ≤ (toWords (nw + 1) (u * 2 ^ s)).getD (n0 - 1) 0
    · rw [if_pos hC] at hfast
      calc u < base ^ n0 := hu0
        _ ≤ base ^ (m - 1) := Nat.pow_le_pow_right base_pos (by omega)
        _ ≤ v := hvlow
    · rw [if_neg hC] at hfast
      push_neg at hC
      rcases Nat.lt_or_ge n0 m with hlt | hge
      · calc u < base ^ n0 := hu0
          _ ≤ base ^ (m - 1) := Nat.pow_le_pow_right base_pos (by omega)
          _ ≤ v := hvlow
      · have hn0m : n0 = m := by omega
        subst hn0m
        have hUm : u * 2 ^ s < base ^ n0 := by
          apply hsmall
          rw [← hgetn0]
          omega
        have hUtopb : u * 2 ^ s / base ^ (n0 - 1) < base := by
          rw [Nat.div_lt_iff_lt_mul hpm1]
          calc u * 2 ^ s < base ^ n0 := hUm
            _ = base * base ^ (n0 - 1) := by rw [hpowm]; ring
        have hgetn0m1 : (toWords (nw + 1) (u * 2 ^ s)).getD (n0 - 1) 0
            = u * 2 ^ s / base ^ (n0 - 1) := by
          rw [toWords_getD (nw + 1) _ (n0 - 1) (by omega),
            Nat.mod_eq_of_lt hUtopb]
        have hC2 : u * 2 ^ s / base ^ (n0 - 1) < v * 2 ^ s / base ^ (n0 - 1) := by
          rw [← hgetn0m1, ← hgetvtop]
          omega
        have hdm2 := Nat.div_add_mod (u * 2 ^ s) (base ^ (n0 - 1))
        have hmod2 : u * 2 ^ s % base ^ (n0 - 1) < base ^ (n0 - 1) :=
          Nat.mod_lt _ hpm1
        have hst : (u * 2 ^ s / base ^ (n0 - 1) + 1) * base ^ (n0 - 1)
            = base ^ (n0 - 1) * (u * 2 ^ s / base ^ (n0 - 1)) + base ^ (n0 - 1) := by
          ring
        have hUlt : u * 2 ^ s
            < (u * 2 ^ s / base ^ (n0 - 1) + 1) * base ^ (n0 - 1) := by
          omega
        have h4 : (u * 2 ^ s / base ^ (n0 - 1) + 1) * base ^ (n0 - 1)
            ≤ v * 2 ^ s / base ^ (n0 - 1) * base ^ (n0 - 1) :=
          Nat.mul_le_mul_right _ (by omega)
        have h5 : v * 2 ^ s / base ^ (n0 - 1) * base ^ (n0 - 1) ≤ v * 2 ^ s :=
          Nat.div_mul_le_self _ _
        have hUD : u * 2 ^ s < v * 2 ^ s := by omega
        exact lt_of_mul_lt_mul_right hUD (Nat.zero_le _)
  · -- slow paths: the significant prefix is exact and below `D * base ^ (n-m)`
    intro hslow
    by_cases hC : (toWords (nw + 1) (u * 2 ^ s)).getD n0 0 ≠ 0 ∨
        (toWords m (v * 2 ^ s)).getD (m - 1) 0
          ≤ (toWords (nw + 1) (u * 2 ^ s)).getD (n0 - 1) 0
    · rw [if_pos hC] at hslow ⊢
      refine ⟨?_, ?_, by omega⟩
      · rw [wval_take_of_lt _ _ (by rw [hwvalun]; exact hU1), hwvalun]
      · have he : m - 1 + (n0 + 1 - m) = n0 := by omega
        have hpsplit : base ^ n0 = base ^ (m - 1) * base ^ (n0 + 1 - m) := by
          rw [← pow_add, he]
        calc u * 2 ^ s < base ^ n0 * 2 ^ s := (Nat.mul_lt_mul_right hspos).mpr hu0
          _ = base ^ (m - 1) * 2 ^ s * base ^ (n0 + 1 - m) := by
              rw [hpsplit]
              ring
          _ ≤ v * 2 ^ s * base ^ (n0 + 1 - m) :=
              Nat.mul_le_mul_right _ (Nat.mul_le_mul_right _ hvlow)
    · rw [if_neg hC] at hslow ⊢
      push_neg at hC
      have hUm : u * 2 ^ s < base ^ n0 := by
        apply hsmall
        rw [← hgetn0]
        omega
      have hn01 : 1 ≤ n0 := by omega
      have hpn01 : 0 < base ^ (n0 - 1) := Nat.pos_pow_of_pos _ base_pos
      have hpown0 : base ^ n0 = base ^ (n0 - 1) * base := by
        have he : n0 - 1 + 1 = n0 := by omega
        rw [← pow_succ, he]
      have hUtopb : u * 2 ^ s / base ^ (n0 - 1) < base := by
        rw [Nat.div_lt_iff_lt_mul hpn01]
        calc u * 2 ^ s < base ^ n0 := hUm
          _ = base * base ^ (n0 - 1) := by rw [hpown0]; ring
      have hgetn0m1 : (toWords (nw + 1) (u * 2 ^ s)).getD (n0 - 1) 0
          = u * 2 ^ s / base ^ (n0 - 1) := by
        rw [toWords_getD (nw + 1) _ (n0 - 1) (by omega), Nat.mod_eq_of_lt hUtopb]
      have hC2 : u * 2 ^ s / base ^ (n0 - 1) < v * 2 ^ s / base ^ (m - 1) := by
        rw [← hgetn0m1, ← hgetvtop]
        omega
      refine ⟨?_, ?_, by omega⟩
      · rw [wval_take_of_lt _ _ (by rw [hwvalun]; exact hUm), hwvalun]
      · have hdm2 := Nat.div_add_mod (u * 2 ^ s) (base ^ (n0 - 1))
        have hmod2 : u * 2 ^ s % base ^ (n0 - 1) < base ^ (n0 - 1) :=
          Nat.mod_lt _ hpn01
        have hst : (u * 2 ^ s / base ^ (n0 - 1) + 1) * base ^ (n0 - 1)
            = base ^ (n0 - 1) * (u * 2 ^ s / base ^ (n0 - 1))
              + base ^ (n0 - 1) := by ring
        have hUlt : u * 2 ^ s
            < (u * 2 ^ s / base ^ (n0 - 1) + 1) * base ^ (n0 - 1) := by omega
        have h4 : (u * 2 ^ s / base ^ (n0 - 1) + 1) * base ^ (n0 - 1)
            ≤ v * 2 ^ s / base ^ (m - 1) * base ^ (n0 - 1) :=
          Nat.mul_le_mul_right _ (by omega)
        have he2 : m - 1 + (n0 - m) = n0 - 1 := by omega
        have hpsplit2 : base ^ (n0 - 1) = base ^ (m - 1) * base ^ (n0 - m) := by
          rw [← pow_add, he2]
        have h5 : v * 2 ^ s / base ^ (m - 1) * base ^ (n0 - 1)
            = v * 2 ^ s / base ^ (m - 1) * base ^ (m - 1) * base ^ (n0 - m) := by
          rw [hpsplit2]
          ring
        have h6 : v * 2 ^ s / base ^ (m - 1) * base ^ (m - 1) ≤ v * 2 ^ s :=
          Nat.div_mul_le_self _ _
        have h7 : v * 2 ^ s / base ^ (m - 1) * base ^ (m - 1) * base ^ (n0 - m)
            ≤ v * 2 ^ s * base ^ (n0 - m) :=
          Nat.mul_le_mul_right _ h6
        omega

theorem wval_drop_eq_zero (l : List Nat) (k : Nat)
    (h : wval (l.take k) = wval l) : wval (l.drop k) = 0 := by
  have hsplit := wval_take_add_drop l k
  have hpk : 0 < base ^ (l.take k).length := Nat.pos_pow_of_pos _ base_pos
  by_contra hne
  have h1 : 1 ≤ wval (l.drop k) := Nat.pos_of_ne_zero hne
  have h2 : base ^ (l.take k).length
      ≤ base ^ (l.take k).length * wval (l.drop k) :=
    Nat.le_mul_of_pos_right _ h1
  omega

theorem wval_append_zero_take (q rest : List Nat) (nw Q : Nat)
    (hq : wval q = Q) (hrest : wval rest = 0) (hQ : Q < base ^ nw) :
    wval ((q ++ rest).take nw) = Q := by
  have h1 : wval (q ++ rest) = Q := by
    rw [wval_append, hq, hrest]
    ring
  rw [wval_take_of_lt _ _ (by rw [h1]; exact hQ), h1]

/-- Full functional correctness of the dispatcher `udivrem` (div.cpp lines
134-170): for operands of `nw` words with `v ≠ 0` it returns exactly the
true quotient and remainder. -/
theorem udivrem_correct (nw u v : Nat) (hub : u < base ^ nw) (hv : v ≠ 0)
    (hvb : v < base ^ nw) :
    udivrem nw u v = (u / v, u % v) := by
  obtain ⟨hfast, hslow⟩ := normalize_cases nw u v hv hub hvb
  by_cases h1 : (normalize nw u v).num_numerator_words
      ≤ (normalize nw u v).num_divisor_words
  · -- fast path: `u < v`
    have huv := hfast h1
    have hres : udivrem nw u v = (0, u) := by
      simp only [udivrem]
      rw [if_pos h1]
    rw [hres, Nat.div_eq_of_lt huv, Nat.mod_eq_of_lt huv]
  · -- slow paths
    push_neg at h1
    obtain ⟨hUeq, hUlt, hNnw⟩ := hslow h1
    have hsb := shift_bounds v hv
    rw [← normalize_shift nw u v] at hsb
    have hs63 : (normalize nw u v).shift ≤ 63 := hsb.1
    have hDlo2 : half * base ^ ((normalize nw u v).num_divisor_words - 1)
        ≤ v * 2 ^ (normalize nw u v).shift := hsb.2.1
    have hDhi2 : v * 2 ^ (normalize nw u v).shift
        < base ^ (normalize nw u v).num_divisor_words := hsb.2.2
    have hM1 : 1 ≤ (normalize nw u v).num_divisor_words := digLen_pos base v hv
    have hunEq : (normalize nw u v).numerator
        = toWords (nw + 1) (u * 2 ^ (normalize nw u v).shift) :=
      normalize_numerator nw u v
    have hvnEq : (normalize nw u v).divisor
        = toWords (normalize nw u v).num_divisor_words
            (v * 2 ^ (normalize nw u v).shift) :=
      normalize_divisor nw u v
    simp only [udivrem]
    clear hfast hslow hsb
    generalize hgS : (normalize nw u v).shift = S at *
    generalize hgN : (normalize nw u v).num_numerator_words = N at *
    generalize hgM : (normalize nw u v).num_divisor_words = M at *
    generalize hgun : (normalize nw u v).numerator = un at *
    generalize hgvn : (normalize nw u v).divisor = vn at *
    -- shared facts about the normalized operands
    have hDpos : 0 < v * 2 ^ S := by
      have hp : 0 < half * base ^ (M - 1) :=
        Nat.mul_pos (by decide) (Nat.pos_pow_of_pos _ base_pos)
      omega
    have hspos : 0 < (2 : Nat) ^ S := Nat.pos_pow_of_pos _ (by omega)
    have hUD_div : u * 2 ^ S / (v * 2 ^ S) = u / v :=
      Nat.mul_div_mul_right u v hspos
    have hUD_mod : u * 2 ^ S % (v * 2 ^ S) = u % v * 2 ^ S :=
      Nat.mul_mod_mul_right (2 ^ S) u v
    have hqlt : u / v < base ^ nw := lt_of_le_of_lt (Nat.div_le_self u v) hub
    have hrem_shift : u % v * 2 ^ S / 2 ^ S = u % v :=
      Nat.mul_div_cancel _ hspos
    have hunlen : un.length = nw + 1 := by rw [hunEq, toWords_length]
    have hbun : wordsBounded un := by rw [hunEq]; exact toWords_bounded _ _
    have hU1nw : u * 2 ^ S < base ^ (nw + 1) := by
      have h2s : (2 : Nat) ^ S ≤ half := Nat.pow_le_pow_right (by omega) hs63
      calc u * 2 ^ S < base ^ nw * 2 ^ S := (Nat.mul_lt_mul_right hspos).mpr hub
        _ ≤ base ^ nw * base := Nat.mul_le_mul_left _ (by
            have hhb : half ≤ base := by decide
            omega)
        _ = base ^ (nw + 1) := (pow_succ base nw).symm
    have hwvalun : wval un = u * 2 ^ S := by
      rw [hunEq]
      exact wval_toWords_of_lt _ _ hU1nw
    have hulen' : (un.take N).length = N := by
      rw [List.length_take]
      omega
    have hbu' : wordsBounded (un.take N) := wordsBounded_take _ hbun
    have hdropz : wval (un.drop N) = 0 :=
      wval_drop_eq_zero un N (by rw [hUeq, hwvalun])
    have hwvn : wval vn = v * 2 ^ S := by
      rw [hvnEq]
      exact wval_toWords_of_lt _ _ hDhi2
    have hvnlen : vn.length = M := by rw [hvnEq, toWords_length]
    have hbvn : wordsBounded vn := by rw [hvnEq]; exact toWords_bounded _ _
    rw [if_neg (by omega : ¬ N ≤ M)]
    by_cases h2 : M = 1
    · -- single-word divisor path
      rw [if_pos h2]
      subst h2
      have hd : vn.getD 0 0 = v * 2 ^ S := by
        rw [hvnEq, toWords_getD 1 _ 0 (by omega), pow_zero, Nat.div_one]
        exact Nat.mod_eq_of_lt (by rw [← pow_one base]; exact hDhi2)
      rw [hd]
      have hby1 := udivrem_by1_spec (un.take N) (v * 2 ^ S)
        (by rw [hulen']; omega) hbu' hDpos ?htop
      case htop =>
        rw [hulen', getD_take un N (N - 1) (by omega), hunEq,
          toWords_getD (nw + 1) _ (N - 1) (by omega)]
        have hdiv : u * 2 ^ S / base ^ (N - 1) < v * 2 ^ S := by
          rw [Nat.div_lt_iff_lt_mul (Nat.pos_pow_of_pos _ base_pos)]
          exact hUlt
        exact lt_of_le_of_lt (Nat.mod_le _ _) hdiv
      rw [Prod.mk.injEq]
      constructor
      · exact wval_append_zero_take _ _ nw (u / v)
          (by rw [hby1.2.2.2.1, hUeq, hUD_div]) hdropz hqlt
      · rw [hby1.2.2.2.2, hUeq, Nat.shiftRight_eq_div_pow, hUD_mod, hrem_shift]
    · rw [if_neg h2]
      by_cases h3 : M = 2
      · -- double-word divisor path
        rw [if_pos h3]
        subst h3
        have hd : vn.getD 1 0 * base + vn.getD 0 0 = v * 2 ^ S := by
          rw [hvnEq, toWords_getD 2 _ 0 (by omega), toWords_getD 2 _ 1 (by omega),
            pow_zero, Nat.div_one, pow_one]
          have hq2 : v * 2 ^ S / base < base := by
            rw [Nat.div_lt_iff_lt_mul base_pos]
            calc v * 2 ^ S < base ^ 2 := hDhi2
              _ = base * base := by rw [pow_two]
          rw [Nat.mod_eq_of_lt hq2]
          have hdm := Nat.div_add_mod (v * 2 ^ S) base
          have hcm : v * 2 ^ S / base * base = base * (v * 2 ^ S / base) :=
            Nat.mul_comm _ _
          omega
        rw [hd]
        have hTlt : u * 2 ^ S / base ^ (N - 2) < v * 2 ^ S := by
          rw [Nat.div_lt_iff_lt_mul (Nat.pos_pow_of_pos _ base_pos)]
          exact hUlt
        have hby2 := udivrem_by2_spec (un.take N) (v * 2 ^ S)
          (by rw [hulen']; omega) hbu' hDpos hDhi2 ?htop2
        case htop2 =>
          rw [hulen', getD_take un N (N - 1) (by omega),
            getD_take un N (N - 2) (by omega), hunEq,
            toWords_getD (nw + 1) _ (N - 1) (by omega),
            toWords_getD (nw + 1) _ (N - 2) (by omega)]
          have hTT : u * 2 ^ S / base ^ (N - 1)
              = u * 2 ^ S / base ^ (N - 2) / base := by
            rw [Nat.div_div_eq_div_mul, ← pow_succ]
            have hNe : N - 2 + 1 = N - 1 := by omega
            rw [hNe]
          have hTb : u * 2 ^ S / base ^ (N - 2) / base < base := by
            rw [Nat.div_lt_iff_lt_mul base_pos]
            calc u * 2 ^ S / base ^ (N - 2) < v * 2 ^ S := hTlt
              _ < base ^ 2 := hDhi2
              _ = base * base := by rw [pow_two]
          rw [hTT, Nat.mod_eq_of_lt hTb]
          have hdm := Nat.div_add_mod (u * 2 ^ S / base ^ (N - 2)) base
          have hcm : u * 2 ^ S / base ^ (N - 2) / base * base
              = base * (u * 2 ^ S / base ^ (N - 2) / base) := Nat.mul_comm _ _
          omega
        rw [Prod.mk.injEq]
        constructor
        · exact wval_append_zero_take _ _ nw (u / v)
            (by rw [hby2.2.2.1, hUeq, hUD_div]) hdropz hqlt
        · rw [hby2.2.2.2, hUeq, Nat.shiftRight_eq_div_pow, hUD_mod, hrem_shift]
      · -- Knuth path
        rw [if_neg h3]
        have hM3 : 3 ≤ M := by omega
        have hsplitvn := list_split_top2 vn (by rw [hvnlen]; omega)
        rw [hvnlen] at hsplitvn
        have hdl_len : (vn.take (M - 2)).length = M - 2 := by
          rw [List.length_take, hvnlen]
          omega
        have hbdl : wordsBounded (vn.take (M - 2)) := wordsBounded_take _ hbvn
        have hd1b : vn.getD (M - 2) 0 < base := by
          rw [hvnEq, toWords_getD M _ (M - 2) (by omega)]
          exact Nat.mod_lt _ base_pos
        have hpm1 : 0 < base ^ (M - 1) := Nat.pos_pow_of_pos _ base_pos
        have hpowm : base ^ M = base ^ (M - 1) * base := by
          have he : M - 1 + 1 = M := by omega
          rw [← pow_succ, he]
        have hDtopb : v * 2 ^ S / base ^ (M - 1) < base := by
          rw [Nat.div_lt_iff_lt_mul hpm1]
          calc v * 2 ^ S < base ^ M := hDhi2
            _ = base * base ^ (M - 1) := by rw [hpowm]; ring
        have hd2eq : vn.getD (M - 1) 0 = v * 2 ^ S / base ^ (M - 1) := by
          rw [hvnEq, toWords_getD M _ (M - 1) (by omega), Nat.mod_eq_of_lt hDtopb]
        have hd2half : half ≤ vn.getD (M - 1) 0 := by
          rw [hd2eq, Nat.le_div_iff_mul_le hpm1]
          exact hDlo2
        have hd2b : vn.getD (M - 1) 0 < base := by
          rw [hd2eq]
          exact hDtopb
        have hDeq : wval (vn.take (M - 2)
            ++ [vn.getD (M - 2) 0, vn.getD (M - 1) 0]) = v * 2 ^ S := by
          rw [← hsplitvn, hwvn]
        have htakefull : (un.take N).take (N - M + (M - 2) + 2) = un.take N := by
          apply List.take_of_length_le
          rw [hulen']
          omega
        have hloop := knuth_loop_spec (vn.take (M - 2)) (vn.getD (M - 2) 0)
          (vn.getD (M - 1) 0) hbdl hd1b hd2half hd2b (N - M) (un.take N) hbu'
          (by rw [hdl_len, hulen']; omega)
          (by rw [hdl_len, htakefull, hUeq, hDeq]; exact hUlt)
        obtain ⟨hql, hqb, hfl, hfb, hid, hR⟩ := hloop
        have hM2 : M - 2 + 2 = M := by omega
        rw [hdl_len, hM2, hDeq] at hid hR
        rw [htakefull, hUeq] at hid
        have hbridge : udivrem_knuth (un.take N) vn
            = knuth_loop (vn.take (M - 2)
                ++ [vn.getD (M - 2) 0, vn.getD (M - 1) 0]) (N - M) (un.take N) := by
          show knuth_loop vn ((un.take N).length - vn.length) (un.take N) = _
          rw [hulen', hvnlen, ← hsplitvn]
        rw [hbridge]
        generalize hgl : knuth_loop (vn.take (M - 2)
            ++ [vn.getD (M - 2) 0, vn.getD (M - 1) 0]) (N - M) (un.take N)
          = res at *
        have huniq : u * 2 ^ S / (v * 2 ^ S) = wval res.1 ∧
            u * 2 ^ S % (v * 2 ^ S) = wval (res.2.take M) :=
          (Nat.div_mod_unique hDpos).mpr
          ⟨by
            have hcm : wval res.1 * (v * 2 ^ S) = (v * 2 ^ S) * wval res.1 :=
              Nat.mul_comm _ _
            omega, hR⟩
        rw [Prod.mk.injEq]
        constructor
        · rw [← huniq.1, hUD_div]
        · rw [denormList_val S hs63 (res.2.take M) (wordsBounded_take _ hfb),
            ← huniq.2, hUD_mod, hrem_shift]

/-- `wordsBounded` is a decidable predicate: it is a bounded quantifier over
the list. -/
instance wordsBounded_decidable (l : List Nat) : Decidable (wordsBounded l) :=
  List.decidableBAll _ l

/-! ## The claims -/

/-- C1: for every pair of `nw`-word operands with `v ≠ 0`, `udivrem` returns
`(q, r)` with `q * v + r` mathematically exactly `u` (the sum is computed in
`ℕ`, so no wraparound occurs) and `r < v`; the embedding is functional, so
the caller's `u` and `v` are values and cannot be modified. -/
theorem C1_udivrem_division_identity (nw u v : Nat) (hub : u < base ^ nw)
    (hv : v ≠ 0) (hvb : v < base ^ nw) :
    (udivrem nw u v).1 * v + (udivrem nw u v).2 = u ∧
    (udivrem nw u v).2 < v := by
  rw [udivrem_correct nw u v hub hv hvb]
  refine ⟨?_, Nat.mod_lt _ (Nat.pos_of_ne_zero hv)⟩
  show u / v * v + u % v = u
  have hdm := Nat.div_add_mod u v
  have hcm : u / v * v = v * (u / v) := Nat.mul_comm _ _
  omega

theorem C1_udivrem_division_identity_witness :
    (udivrem 4 1000000007 97).1 * 97 + (udivrem 4 1000000007 97).2
        = 1000000007 ∧
    (udivrem 4 1000000007 97).2 < 97 :=
  C1_udivrem_division_identity 4 1000000007 97 (by decide) (by decide)
    (by decide)

/-- C2: on the normal (non-overflow) branch of a `udivrem_knuth` iteration,
with a normalized divisor `dl ++ [d1, d2]` of at least 3 words (top bit of
`d2` set) and the numerator window below `divisor * base`, the trial digit of
the reciprocal 3-by-2 division is never below the true quotient digit and at
most 1 above it; if the borrow combination underflows, the digit was exactly
one too high, and the step — which decrements it once and adds the divisor
back — returns the exact quotient digit together with the exact partial
remainder in the window, so a single additive correction always suffices. -/
theorem C2_knuth_normal_qhat_bounds (dl P wl S : List Nat) (a b c d1 d2 j : Nat)
    (hP : P.length = j) (hwl : wl.length = dl.length)
    (hbwl : wordsBounded wl) (hbdl : wordsBounded dl)
    (ha : a < base) (hb : b < base) (hc : c < base)
    (hd1 : d1 < base) (hd2 : half ≤ d2) (hd2b : d2 < base)
    (hwin : wval (wl ++ [a, b, c]) < wval (dl ++ [d1, d2]) * base)
    (hob : c * base + b ≠ d2 * base + d1) :
    wval (wl ++ [a, b, c]) / wval (dl ++ [d1, d2])
      ≤ (udivrem_3by2 c b a (d2 * base + d1)).1 ∧
    (udivrem_3by2 c b a (d2 * base + d1)).1
      ≤ wval (wl ++ [a, b, c]) / wval (dl ++ [d1, d2]) + 1 ∧
    ((sub_with_carry ((udivrem_3by2 c b a (d2 * base + d1)).2 / base)
        (cval (sub_with_carry ((udivrem_3by2 c b a (d2 * base + d1)).2 % base)
          (submul wl dl (udivrem_3by2 c b a (d2 * base + d1)).1).2).2)).2 = true
      → (udivrem_3by2 c b a (d2 * base + d1)).1
          = wval (wl ++ [a, b, c]) / wval (dl ++ [d1, d2]) + 1) ∧
    ∃ w', knuth_step (dl ++ [d1, d2]) (P ++ (wl ++ ([a, b, c] ++ S))) j
        = (wval (wl ++ [a, b, c]) / wval (dl ++ [d1, d2]),
           P ++ (w' ++ (c :: S))) ∧
      w'.length = dl.length + 2 ∧ wordsBounded w' ∧
      wval w' = wval (wl ++ [a, b, c]) % wval (dl ++ [d1, d2]) :=
  knuth_step_normal_sem dl P wl S a b c d1 d2 j hP hwl hbwl hbdl
    ha hb hc hd1 hd2 hd2b hwin hob

theorem C2_knuth_normal_qhat_bounds_witness :
    wval ([3] ++ [2, 9, 2 ^ 62]) / wval ([5] ++ [7, 2 ^ 63])
        ≤ (udivrem_3by2 (2 ^ 62) 9 2 (2 ^ 63 * base + 7)).1 ∧
    (udivrem_3by2 (2 ^ 62) 9 2 (2 ^ 63 * base + 7)).1
        ≤ wval ([3] ++ [2, 9, 2 ^ 62]) / wval ([5] ++ [7, 2 ^ 63]) + 1 :=
  ⟨(C2_knuth_normal_qhat_bounds [5] [] [3] [] 2 9 (2 ^ 62) 7 (2 ^ 63) 0
      rfl rfl (by decide) (by decide) (by decide) (by decide) (by decide)
      (by decide) (by decide) (by decide) (by decide) (by decide)).1,
   (C2_knuth_normal_qhat_bounds [5] [] [3] [] 2 9 (2 ^ 62) 7 (2 ^ 63) 0
      rfl rfl (by decide) (by decide) (by decide) (by decide) (by decide)
      (by decide) (by decide) (by decide) (by decide) (by decide)).2.1⟩

/-- C3: whenever the top two numerator words of the window equal the top two
divisor words exactly, the iteration takes the overflow branch: the trial
digit is set to `2^64 - 1`, which is exactly the true quotient digit of the
window (so no digit of value `2^64` is ever produced), `submul` subtracts the
digit times the full `dlen`-word divisor with the borrow folded back into the
stale top word (which becomes 0), and the window is left holding the exact
partial remainder — such inputs are handled correctly, not as errors. -/
theorem C3_knuth_overflow_branch (dl P wl S : List Nat) (a b c d1 d2 j : Nat)
    (hP : P.length = j) (hwl : wl.length = dl.length)
    (hbwl : wordsBounded wl) (hbdl : wordsBounded dl)
    (ha : a < base) (hb : b < base) (hc : c < base)
    (hd1 : d1 < base) (hd2 : half ≤ d2) (hd2b : d2 < base)
    (hwin : wval (wl ++ [a, b, c]) < wval (dl ++ [d1, d2]) * base)
    (hob : c * base + b = d2 * base + d1) :
    knuth_step (dl ++ [d1, d2]) (P ++ (wl ++ ([a, b, c] ++ S))) j
        = (base - 1,
           P ++ ((submul (wl ++ [a, b]) (dl ++ [d1, d2]) (base - 1)).1
             ++ (0 :: S))) ∧
    base - 1 = wval (wl ++ [a, b, c]) / wval (dl ++ [d1, d2]) ∧
    (submul (wl ++ [a, b]) (dl ++ [d1, d2]) (base - 1)).1.length
      = dl.length + 2 ∧
    wordsBounded (submul (wl ++ [a, b]) (dl ++ [d1, d2]) (base - 1)).1 ∧
    wval (submul (wl ++ [a, b]) (dl ++ [d1, d2]) (base - 1)).1
      = wval (wl ++ [a, b, c]) % wval (dl ++ [d1, d2]) :=
  knuth_step_overflow_sem dl P wl S a b c d1 d2 j hP hwl hbwl hbdl
    ha hb hc hd1 hd2 hd2b hwin hob

theorem C3_knuth_overflow_branch_witness :
    base - 1 = wval ([0] ++ [3, 0, 2 ^ 63]) / wval ([5] ++ [0, 2 ^ 63]) :=
  (C3_knuth_overflow_branch [5] [] [0] [] 3 0 (2 ^ 63) 0 (2 ^ 63) 0
      rfl rfl (by decide) (by decide) (by decide) (by decide) (by decide)
      (by decide) (by decide) (by decide) (by decide) (by decide)).2.1

/-- C4: for every `v ≠ 0` and `u < v`, the dispatcher returns quotient `0`
and remainder `u`; in particular dividing zero gives `(0, 0)`. -/
theorem C4_fast_path (nw u v : Nat) (hub : u < base ^ nw) (hv : v ≠ 0)
    (hvb : v < base ^ nw) (huv : u < v) :
    udivrem nw u v = (0, u) ∧ udivrem nw 0 v = (0, 0) := by
  constructor
  · rw [udivrem_correct nw u v hub hv hvb, Nat.div_eq_of_lt huv,
      Nat.mod_eq_of_lt huv]
  · rw [udivrem_correct nw 0 v (Nat.pos_pow_of_pos _ base_pos) hv hvb,
      Nat.zero_div, Nat.zero_mod]

theorem C4_fast_path_witness :
    udivrem 4 5 1000 = (0, 5) ∧ udivrem 4 0 1000 = (0, 0) :=
  C4_fast_path 4 5 1000 (by decide) (by decide) (by decide) (by decide)

/-- C5: construction law — for every width, `v > 0`, `q ≥ 0` and `0 ≤ r < v`
such that `v*q + r` (and `v`) fit in `nw` words, dividing `v*q + r` by `v`
returns exactly `(q, r)`. -/
theorem C5_construction_law (nw v q r : Nat) (hv : 0 < v) (hr : r < v)
    (hfit : v * q + r < base ^ nw) (hvb : v < base ^ nw) :
    udivrem nw (v * q + r) v = (q, r) := by
  rw [udivrem_correct nw (v * q + r) v hfit (by omega) hvb, Prod.mk.injEq]
  constructor
  · rw [Nat.mul_add_div hv, Nat.div_eq_of_lt hr]
    omega
  · rw [Nat.mul_add_mod, Nat.mod_eq_of_lt hr]

theorem C5_construction_law_witness :
    udivrem 4 ((2 ^ 128 + 2 ^ 64 + 1) * 12345 + 6789) (2 ^ 128 + 2 ^ 64 + 1)
      = (12345, 6789) :=
  C5_construction_law 4 (2 ^ 128 + 2 ^ 64 + 1) 12345 6789 (by decide)
    (by decide) (by decide) (by decide)

/-- C6: for every numerator array of length at least 2 with normalized top
word and every normalized 1-word divisor `d` (bit 63 set), `udivrem_by1`
leaves the words of the exact quotient in the array — the top slot zeroed,
one exact digit per step — and returns exactly the remainder of the value
modulo `d`. -/
theorem C6_udivrem_by1_exact (u : List Nat) (d : Nat) (hlen : 2 ≤ u.length)
    (hu : wordsBounded u) (hd : half ≤ d) (hdb : d < base)
    (htop : u.getD (u.length - 1) 0 < d) :
    (udivrem_by1 u d).1.length = u.length ∧
    wordsBounded (udivrem_by1 u d).1 ∧
    (udivrem_by1 u d).1.getD (u.length - 1) 0 = 0 ∧
    wval (udivrem_by1 u d).1 = wval u / d ∧
    (udivrem_by1 u d).2 = wval u % d :=
  udivrem_by1_spec u d hlen hu
    (by
      have hh : (0 : Nat) < half := by decide
      omega) htop

theorem C6_udivrem_by1_exact_witness :
    wval (udivrem_by1 [7, 4, 2 ^ 63] (2 ^ 63 + 5)).1
        = wval [7, 4, 2 ^ 63] / (2 ^ 63 + 5) ∧
    (udivrem_by1 [7, 4, 2 ^ 63] (2 ^ 63 + 5)).2
        = wval [7, 4, 2 ^ 63] % (2 ^ 63 + 5) :=
  ⟨(C6_udivrem_by1_exact [7, 4, 2 ^ 63] (2 ^ 63 + 5) (by decide) (by decide)
      (by decide) (by decide) (by decide)).2.2.2.1,
   (C6_udivrem_by1_exact [7, 4, 2 ^ 63] (2 ^ 63 + 5) (by decide) (by decide)
      (by decide) (by decide) (by decide)).2.2.2.2⟩

/-- C7: `submul` computes `r = x - multiplier * y` exactly: as integers the
stored array equals `x - m*y + borrow * 2^(64*len)`, the returned borrow is a
single word measuring the exact shortfall, and every stored word is bounded.
The embedding threads one list through the loop, which is precisely the
permitted aliasing `r = x`. -/
theorem C7_submul_exact (x y : List Nat) (m : Nat) (_hlen1 : 1 ≤ x.length)
    (hx : wordsBounded x) (hy : wordsBounded y) (hlen : y.length = x.length)
    (hm : m < base) :
    (submul x y m).1.length = x.length ∧
    wordsBounded (submul x y m).1 ∧
    (submul x y m).2 < base ∧
    (wval (submul x y m).1 : ℤ) =
      (wval x : ℤ) - m * wval y + (submul x y m).2 * (base : ℤ) ^ x.length :=
  submul_spec x y m hx hy hlen hm

theorem C7_submul_exact_witness :
    (wval (submul [10, 20] [3, 4] 6).1 : ℤ) =
      (wval [10, 20] : ℤ) - 6 * wval [3, 4]
        + (submul [10, 20] [3, 4] 6).2 * (base : ℤ) ^ ([10, 20] : List Nat).length :=
  (C7_submul_exact [10, 20] [3, 4] 6 (by decide) (by decide) (by decide)
    rfl (by decide)).2.2.2

/-- C8: `add` computes `s = x + y` word-by-word with carry propagation: the
final carry-out is 0 or 1 and, as exact integers,
`value(s) + carry * 2^(64*len) = value(x) + value(y)`.  The embedding threads
one list through the loop, covering the permitted aliasing `s = x`. -/
theorem C8_add_exact (x y : List Nat) (_hlen2 : 2 ≤ x.length)
    (hx : wordsBounded x) (hy : wordsBounded y) (hlen : y.length = x.length) :
    (add x y).1.length = x.length ∧
    wordsBounded (add x y).1 ∧
    cval (add x y).2 ≤ 1 ∧
    wval (add x y).1 + cval (add x y).2 * base ^ x.length
      = wval x + wval y := by
  have h := add_spec x y hx hy hlen
  exact ⟨h.1, h.2.1, cval_le_one _, h.2.2⟩

theorem C8_add_exact_witness :
    wval (add [2 ^ 64 - 1, 7] [1, 8]).1
        + cval (add [2 ^ 64 - 1, 7] [1, 8]).2
          * base ^ ([2 ^ 64 - 1, 7] : List Nat).length
      = wval [2 ^ 64 - 1, 7] + wval [1, 8] :=
  (C8_add_exact [2 ^ 64 - 1, 7] [1, 8] (by decide) (by decide) (by decide)
    rfl).2.2.2

/-- C10: in the normal branch of a `udivrem_knuth` iteration, whenever the
final borrow of the 2-word remainder update is set (the condition guarding
the correction, div.cpp line 121), the trial digit equals the true quotient
digit plus one; in particular `qhat ≥ 1`, so the decrement `--qhat` never
wraps below zero, and the stored digit `qhat - 1` is the true quotient digit,
which is a valid single word. -/
theorem C10_correction_requires_positive_qhat (dl P wl S : List Nat)
    (a b c d1 d2 j : Nat)
    (hP : P.length = j) (hwl : wl.length = dl.length)
    (hbwl : wordsBounded wl) (hbdl : wordsBounded dl)
    (ha : a < base) (hb : b < base) (hc : c < base)
    (hd1 : d1 < base) (hd2 : half ≤ d2) (hd2b : d2 < base)
    (hwin : wval (wl ++ [a, b, c]) < wval (dl ++ [d1, d2]) * base)
    (hob : c * base + b ≠ d2 * base + d1)
    (hcarry : (sub_with_carry ((udivrem_3by2 c b a (d2 * base + d1)).2 / base)
        (cval (sub_with_carry ((udivrem_3by2 c b a (d2 * base + d1)).2 % base)
          (submul wl dl (udivrem_3by2 c b a (d2 * base + d1)).1).2).2)).2
        = true) :
    1 ≤ (udivrem_3by2 c b a (d2 * base + d1)).1 ∧
    (udivrem_3by2 c b a (d2 * base + d1)).1 - 1
      = wval (wl ++ [a, b, c]) / wval (dl ++ [d1, d2]) ∧
    wval (wl ++ [a, b, c]) / wval (dl ++ [d1, d2]) < base := by
  have h := knuth_step_normal_sem dl P wl S a b c d1 d2 j hP hwl hbwl hbdl
    ha hb hc hd1 hd2 hd2b hwin hob
  have heq := h.2.2.1 hcarry
  refine ⟨?_, ?_, Nat.div_lt_of_lt_mul hwin⟩
  · rw [heq]
    exact Nat.le_add_left 1 _
  · rw [heq]
    exact Nat.add_sub_cancel _ _

theorem C10_correction_requires_positive_qhat_witness :
    1 ≤ (udivrem_3by2 2 (2 ^ 63) 0 (2 ^ 63 * base + 0)).1 ∧
    (udivrem_3by2 2 (2 ^ 63) 0 (2 ^ 63 * base + 0)).1 - 1
      = wval ([0] ++ [0, 2 ^ 63, 2]) / wval ([2 ^ 64 - 1] ++ [0, 2 ^ 63]) ∧
    wval ([0] ++ [0, 2 ^ 63, 2]) / wval ([2 ^ 64 - 1] ++ [0, 2 ^ 63]) < base :=
  C10_correction_requires_positive_qhat [2 ^ 64 - 1] [] [0] [] 0 (2 ^ 63) 2
    0 (2 ^ 63) 0 rfl rfl (by decide) (by decide) (by decide) (by decide)
    (by decide) (by decide) (by decide) (by decide) (by decide) (by decide)
    (by decide)

end Intx
